import Mathlib

/-!
# Verification of the Smart Scout web client (`app.js`) and the audit pipeline spec

Shallow embedding of `src/smart_scout/webapp/static/js/app.js` — the JS front
end of the Smart Scout prospecting/audit tool — together with a spec-modelled
view of the server-side priority-tier classifier (whose Python source is not in
the repository snapshot; only the spec describes it).

Strings are modelled as `List Char`; JS string operations (`trim`,
`toLowerCase`, `includes`, `replace`, `parseInt`) are embedded as executable
functions that follow the source semantics character by character (newline is
the line terminator; `toLowerCase` is embedded at ASCII granularity, which is
exact for every pattern the code tests).
-/

namespace SmartScout

/-- JS whitespace (the `\s` class and `String.prototype.trim` set):
ASCII blanks (space 32, tab 9, LF 10, VT 11, FF 12, CR 13), NBSP, BOM and the
Unicode space separators, by code point. -/
def isJsWs (c : Char) : Bool :=
  c.toNat = 32 || c.toNat = 9 || c.toNat = 10 || c.toNat = 11 ||
  c.toNat = 12 || c.toNat = 13 || c.toNat = 0xa0 || c.toNat = 0x1680 ||
  (0x2000 ≤ c.toNat && c.toNat ≤ 0x200a) || c.toNat = 0x2028 ||
  c.toNat = 0x2029 || c.toNat = 0x202f || c.toNat = 0x205f ||
  c.toNat = 0x3000 || c.toNat = 0xfeff

/-- One character of `String.prototype.toLowerCase` (ASCII range, the only
range the classifier's patterns exercise). -/
def jsToLower (c : Char) : Char := c.toLower

/-- `s.toLowerCase()` over the character list. -/
def jsToLowerStr (s : List Char) : List Char := s.map jsToLower

/-- `s.includes(pat)`: `pat` occurs as a contiguous substring of `s`. -/
def includesSub : List Char → List Char → Bool
  | s, pat =>
    if pat.isPrefixOf s then true
    else
      match s with
      | [] => false
      | _ :: t => includesSub t pat

/-- `s.trim()`: strip leading and trailing JS whitespace. -/
def jsTrim (s : List Char) : List Char :=
  (s.dropWhile isJsWs).rdropWhile isJsWs

/-- `classifyLog` from `app.js` lines 119–126: lowercase the line, then test
substring containment in order — done, error, warn, info — returning the CSS
class, or the empty class when nothing matches. -/
def classifyLog (text : List Char) : List Char :=
  let t := jsToLowerStr text
  if includesSub t "[✓]".data || includesSub t "complete".data ||
     includesSub t "saved".data then "done".data
  else if includesSub t "[!]".data || includesSub t "error".data ||
          includesSub t "failed".data then "error".data
  else if includesSub t "[dry run]".data || includesSub t "warning".data then
    "warn".data
  else if includesSub t "[+]".data || includesSub t "[>]".data ||
          includesSub t "[~]".data then "info".data
  else []

/-! ## `parseInt` and the audit `limit` default (`btnRunAudit`, line 383) -/

/-- Decimal digit test (`parseInt`, radix 10). -/
def isDigit (c : Char) : Bool := '0' ≤ c && c ≤ '9'

/-- Hexadecimal digit test (radix 16, reached through a `0x` prefix). -/
def isHexDigit (c : Char) : Bool :=
  isDigit c || ('a' ≤ c && c ≤ 'f') || ('A' ≤ c && c ≤ 'F')

/-- Numeric value of one digit character. -/
def digitVal (c : Char) : Nat :=
  if isDigit c then c.toNat - '0'.toNat
  else if 'a' ≤ c && c ≤ 'f' then c.toNat - 'a'.toNat + 10
  else if 'A' ≤ c && c ≤ 'F' then c.toNat - 'A'.toNat + 10
  else 0

/-- Fold a digit run left to right in the given radix, stopping at the first
non-digit. -/
def digitsValGo (radix : Nat) (ok : Char → Bool) (acc : Nat) :
    List Char → Nat
  | [] => acc
  | c :: rest =>
    if ok c then digitsValGo radix ok (acc * radix + digitVal c) rest else acc

/-- Value of the longest leading digit run in the given radix; `none` when
there is no digit at all (`parseInt` yields `NaN`). -/
def digitsVal (radix : Nat) (ok : Char → Bool) : List Char → Option Nat
  | [] => none
  | c :: rest =>
    if ok c then some (digitsValGo radix ok (digitVal c) rest) else none

/-- `parseInt(s)` with no radix argument: skip leading whitespace, read an
optional sign, honour a `0x`/`0X` hex prefix, then read the longest digit run;
`none` models `NaN`. -/
def jsParseInt (s : List Char) : Option Int :=
  let s₁ := s.dropWhile isJsWs
  let (sign, s₂) : Int × List Char :=
    match s₁ with
    | '-' :: r => (-1, r)
    | '+' :: r => (1, r)
    | r => (1, r)
  match s₂ with
  | '0' :: 'x' :: r => (digitsVal 16 isHexDigit r).map (fun n => sign * n)
  | '0' :: 'X' :: r => (digitsVal 16 isHexDigit r).map (fun n => sign * n)
  | r => (digitsVal 10 isDigit r).map (fun n => sign * n)

/-- `parseInt($('auditLimit').value) || 10` (line 383): `NaN` and `0` are
falsy, so both fall back to the default 10. -/
def auditLimit (input : List Char) : Int :=
  match jsParseInt input with
  | none => 10
  | some n => if n = 0 then 10 else n

/-! ## Slug normalization (`modalSave` handler, lines 274–293) -/

/-- Scanner for `.replace(/\s+/g, '_')`: the Boolean records whether the scan
is inside a whitespace run (whose first character already produced the
underscore). -/
def replWsAux (inRun : Bool) : List Char → List Char
  | [] => []
  | c :: rest =>
    if isJsWs c then
      if inRun then replWsAux true rest else '_' :: replWsAux true rest
    else c :: replWsAux false rest

/-- `value.replace(/\s+/g, '_')`: each maximal whitespace run collapses to a
single underscore. -/
def replaceWsRuns (s : List Char) : List Char := replWsAux false s

/-- The slug actually submitted:
`$('industrySlug').value.trim().replace(/\s+/g, '_').toLowerCase()`. -/
def normalizeSlug (s : List Char) : List Char :=
  jsToLowerStr (replaceWsRuns (jsTrim s))

/-- The `modalSave` click handler's decision: `none` models an early `return`
(validation alert), `some (slug, yaml)` the body of the `fetch` request. -/
def modalSave (slugInput yamlContent : List Char) :
    Option (List Char × List Char) :=
  let slug := normalizeSlug slugInput
  if slug = [] then none
  else if jsTrim yamlContent = [] then none
  else some (slug, yamlContent)

/-! ## Query-string construction (`runStream` lines 136–139, `btnRunAudit`
lines 405–408) -/

/-- The JS values that can sit in a stream-request parameter map. -/
inductive JsVal
  | undef
  | null
  | str (s : List Char)
  | num (n : Int)
  | bool (b : Bool)
deriving DecidableEq

/-- `String(v)` as applied to the parameter values. -/
def JsVal.toStr : JsVal → List Char
  | .undef => "undefined".data
  | .null => "null".data
  | .str s => s
  | .num n => (toString n).data
  | .bool b => (if b then "true" else "false").data

/-- The filter on line 138 / 407:
`v !== undefined && v !== null && v !== ''`. -/
def keepParam : JsVal → Bool
  | .undef => false
  | .null => false
  | .str s => !s.isEmpty
  | .num _ => true
  | .bool _ => true

/-- `url.searchParams.set(k, v)`: replace the value under `k` when present,
otherwise append the pair. -/
def setParam (k : List Char) (v : List Char) :
    List (List Char × List Char) → List (List Char × List Char)
  | [] => [(k, v)]
  | (k', v') :: rest =>
    if k' = k then (k, v) :: rest else (k', v') :: setParam k v rest

/-- `Object.entries(params).forEach(([k, v]) => if kept, set)` on an initially
empty query string. -/
def buildQuery (params : List (List Char × JsVal)) :
    List (List Char × List Char) :=
  params.foldl
    (fun acc p => if keepParam p.2 then setParam p.1 p.2.toStr acc else acc) []

/-! ## `renderMarkdown` (lines 11–48)

Each `.replace` of the chain is embedded as an executable scan with the exact
JS regex semantics: global scans advance one character on a failed match
attempt, `m`-flagged `^`/`$` anchors are line boundaries (newline is the line
terminator), greedy and lazy quantifiers are resolved as the backtracking
engine resolves them. -/

/-- `.replace(/&/g,'&amp;')` and friends: a global single-character replace is
a `concatMap`. -/
def replaceChar (t : Char) (rep : List Char) (s : List Char) : List Char :=
  s.flatMap fun c => if c = t then rep else [c]

/-- The three leading escapes, in source order: `&`, then `<`, then `>`. -/
def escapeHtml (s : List Char) : List Char :=
  replaceChar '>' "&gt;".data (replaceChar '<' "&lt;".data
    (replaceChar '&' "&amp;".data s))

/-- One input character's escaped form. -/
def escChar (c : Char) : List Char :=
  if c = '&' then "&amp;".data
  else if c = '<' then "&lt;".data
  else if c = '>' then "&gt;".data
  else [c]

/-- `s.split(sep)` for a one-character separator: every occurrence splits,
empty fields preserved. -/
def splitCh (sep : Char) : List Char → List (List Char)
  | [] => [[]]
  | c :: rest =>
    if c = sep then [] :: splitCh sep rest
    else
      match splitCh sep rest with
      | l :: ls => (c :: l) :: ls
      | [] => [[c]]

/-- Split a string into its `\n`-separated lines. -/
def splitNl (s : List Char) : List (List Char) := splitCh '\n' s

/-- Join with `\n` (`Array.prototype.join('\n')` over split pieces). -/
def joinNl : List (List Char) → List Char
  | [] => []
  | [l] => l
  | l :: ls => l ++ '\n' :: joinNl ls

/-- A per-line (`/^…$/gm` with no `\s` crossing) replace. -/
def mapLines (f : List Char → List Char) (s : List Char) : List Char :=
  joinNl ((splitNl s).map f)

/-- `^### (.+)$` → `<h3>$1</h3>`. -/
def h3Line (l : List Char) : List Char :=
  if "### ".data.isPrefixOf l ∧ l.drop 4 ≠ [] then
    "<h3>".data ++ l.drop 4 ++ "</h3>".data
  else l

/-- `^## (.+)$` → `<h2>$1</h2>`. -/
def h2Line (l : List Char) : List Char :=
  if "## ".data.isPrefixOf l ∧ l.drop 3 ≠ [] then
    "<h2>".data ++ l.drop 3 ++ "</h2>".data
  else l

/-- `^# (.+)$` → `<h1>$1</h1>`. -/
def h1Line (l : List Char) : List Char :=
  if "# ".data.isPrefixOf l ∧ l.drop 2 ≠ [] then
    "<h1>".data ++ l.drop 2 ++ "</h1>".data
  else l

/-- `^---+$` (three or more hyphens filling the line) → `<hr>`. -/
def hrLine (l : List Char) : List Char :=
  if 3 ≤ l.length ∧ l.all (· = '-') then "<hr>".data else l

/-- `^&gt; (.+)$` → `<blockquote>$1</blockquote>` (the input's `>` is already
escaped when this stage runs). -/
def bqLine (l : List Char) : List Char :=
  if "&gt; ".data.isPrefixOf l ∧ l.drop 5 ≠ [] then
    "<blockquote>".data ++ l.drop 5 ++ "</blockquote>".data
  else l

/-- `^\d+\. (.+)$` → `<li>$1</li>`. -/
def olLine (l : List Char) : List Char :=
  let ds := l.takeWhile isDigit
  if ds ≠ [] ∧ ". ".data.isPrefixOf (l.drop ds.length) ∧
     l.drop (ds.length + 2) ≠ [] then
    "<li>".data ++ l.drop (ds.length + 2) ++ "</li>".data
  else l

/-- Paragraph wrap `^(?!<[h|u|o|l|p|b|t|h|c|p]|<\/|<h|<li|<pre|<bl|<hr)(.+)$`:
wrap any nonempty line unless it starts with `<` followed by one of the
lookahead's second characters. -/
def paraExcluded (l : List Char) : Bool :=
  match l with
  | '<' :: c :: _ =>
    c = 'h' || c = 'u' || c = 'o' || c = 'l' || c = 'p' || c = 'b' ||
    c = 't' || c = 'c' || c = '|' || c = '/'
  | _ => false

/-- One line of the paragraph stage. -/
def paraLine (l : List Char) : List Char :=
  if l = [] then l
  else if paraExcluded l then l
  else "<p>".data ++ l ++ "</p>".data

/-- A global scan: at each position try the matcher (which returns the
replacement text and how many characters it consumed); on failure copy one
character and move on, as the regex engine does. -/
def scanRepl (m : List Char → Option (List Char × Nat)) :
    List Char → List Char
  | [] => []
  | c :: rest =>
    match m (c :: rest) with
    | some (out, n) => out ++ scanRepl m ((c :: rest).drop (max 1 n))
    | none => c :: scanRepl m rest
termination_by s => s.length
decreasing_by
  · simp only [List.length_drop, List.length_cons]
    omega
  · simp

/-- A global scan whose matcher only fires at line starts (a pattern anchored
by a multiline `^`); the Boolean tracks whether the current position is a
line start. -/
def scanReplLS (m : List Char → Option (List Char × Nat)) :
    Bool → List Char → List Char
  | _, [] => []
  | atLS, c :: rest =>
    match if atLS then m (c :: rest) else none with
    | some (out, n) => out ++ scanReplLS m false ((c :: rest).drop (max 1 n))
    | none => c :: scanReplLS m (c = '\n') rest
termination_by _ s => s.length
decreasing_by
  · simp only [List.length_drop, List.length_cons]
    omega
  · simp

/-- Lazy search for the closing `**`: the shortest nonempty newline-free
content followed by `**`; returns the content and the characters consumed
(content plus the two stars). -/
def bfind : List Char → Option (List Char × Nat)
  | [] => none
  | c :: rest =>
    if c = '\n' then none
    else if "**".data.isPrefixOf rest then some ([c], 3)
    else (bfind rest).map fun p => (c :: p.1, p.2 + 1)

/-- `\*\*(.+?)\*\*` → `<strong>$1</strong>` at the current position. -/
def boldM (s : List Char) : Option (List Char × Nat) :=
  if "**".data.isPrefixOf s then
    (bfind (s.drop 2)).map fun p =>
      ("<strong>".data ++ p.1 ++ "</strong>".data, p.2 + 2)
  else none

/-- Lazy search for a closing single `*`. -/
def ifind : List Char → Option (List Char × Nat)
  | [] => none
  | c :: rest =>
    if c = '\n' then none
    else if "*".data.isPrefixOf rest then some ([c], 2)
    else (ifind rest).map fun p => (c :: p.1, p.2 + 1)

/-- `\*(.+?)\*` → `<em>$1</em>` at the current position. -/
def italM (s : List Char) : Option (List Char × Nat) :=
  if "*".data.isPrefixOf s then
    (ifind (s.drop 1)).map fun p =>
      ("<em>".data ++ p.1 ++ "</em>".data, p.2 + 1)
  else none

/-- `` `([^`]+)` `` → `<code>$1</code>` at the current position: a nonempty
backtick-free run enclosed in backticks. -/
def codeM (s : List Char) : Option (List Char × Nat) :=
  if "`".data.isPrefixOf s then
    let content := (s.drop 1).takeWhile (· ≠ '`')
    if content = [] then none
    else if ((s.drop 1).drop content.length).take 1 = ['`'] then
      some ("<code>".data ++ content ++ "</code>".data, content.length + 2)
    else none
  else none

/-- `^\s*[-*] (.+)$` (the `\s*` may swallow preceding blank lines) →
`<li>$1</li>`; only attempted at line starts. -/
def ulM (s : List Char) : Option (List Char × Nat) :=
  let ws := s.takeWhile isJsWs
  let r := s.drop ws.length
  if (r.take 1 = ['-'] ∨ r.take 1 = ['*']) ∧ (r.drop 1).take 1 = [' '] then
    let content := (r.drop 2).takeWhile (· ≠ '\n')
    if content = [] then none
    else
      some ("<li>".data ++ content ++ "</li>".data,
        ws.length + 2 + content.length)
  else none

/-- The unordered-list stage. -/
def ulStage (s : List Char) : List Char := scanReplLS ulM true s

/-- The bold, italic and inline-code stages. -/
def boldStage (s : List Char) : List Char := scanRepl boldM s

/-- See `boldStage`. -/
def italStage (s : List Char) : List Char := scanRepl italM s

/-- See `boldStage`. -/
def codeStage (s : List Char) : List Char := scanRepl codeM s

/-! ### The table stage
`\|(.+)\|\n\|[-| :]+\|\n((?:\|.+\|\n?)+)` with its row/cell-splitting
callback. A match needs: (a) the rest of the current line to be
`|` content `|` with nonempty content and the closing pipe at line end;
(b) the next line to be `|`, one or more of `- | space :`, `|`;
(c) one or more row pieces, each `|` content `|` where the closing pipe is
the last pipe of its line (greedy `.+`), a row's optional `\n` being consumed
when the closing pipe ends its line. -/

/-- Index of the last `|` of a newline-free line tail, if any. -/
def lastPipeIdx : List Char → Option Nat
  | [] => none
  | c :: rest =>
    match lastPipeIdx rest with
    | some j => some (j + 1)
    | none => if c = '|' then some 0 else none

/-- One row piece `\|.+\|`: the characters consumed (leading pipe, at least
one content character, closing pipe = the line's last pipe). -/
def rowOne : List Char → Option Nat
  | [] => none
  | c :: r =>
    if c = '|' then
      match lastPipeIdx (r.takeWhile (· ≠ '\n')) with
      | some j => if 1 ≤ j then some (j + 2) else none
      | none => none
    else none

/-- `rowOne` consumes at least one character. -/
theorem rowOne_pos {s : List Char} {n : Nat} (h : rowOne s = some n) : 1 ≤ n := by
  match s with
  | [] => simp [rowOne] at h
  | c :: r =>
    by_cases hc : c = '|'
    · simp only [rowOne, if_pos hc] at h
      rcases hj : lastPipeIdx (r.takeWhile (· ≠ '\n')) with _ | j <;> rw [hj] at h
      · simp at h
      · have h' : (if 1 ≤ j then some (j + 2) else none) = some n := h
        by_cases h1 : 1 ≤ j
        · rw [if_pos h1] at h'
          injection h' with h'
          omega
        · rw [if_neg h1] at h'
          simp at h'
    · simp [rowOne, hc] at h

/-- The greedy `((?:\|.+\|\n?)+)` group: the captured rows text and the total
characters consumed. -/
def rowsGo (s : List Char) : Option (List Char × Nat) :=
  match h : rowOne s with
  | none => none
  | some n =>
    match h' : s.drop n with
    | '\n' :: s'' =>
      match rowsGo s'' with
      | some (txt, m) => some (s.take n ++ '\n' :: txt, n + 1 + m)
      | none => some (s.take n ++ ['\n'], n + 1)
    | _ => some (s.take n, n)
termination_by s.length
decreasing_by
  have hlen : s''.length + 1 = (s.drop n).length := by rw [h']; simp
  have : (s.drop n).length ≤ s.length := by
    simp [List.length_drop]
  omega

/-- Characters of the separator line's class `[-| :]`. -/
def isSepChar (c : Char) : Bool := c = '-' || c = '|' || c = ' ' || c = ':'

/-- `s.split(sep)` then `.filter(Boolean)`: nonempty fields only. -/
def splitKeep (sep : Char) (s : List Char) : List (List Char) :=
  (splitCh sep s).filter (· ≠ [])

/-- The callback's header cells: `header.split('|').filter(Boolean).map(h =>
'<th>' + h.trim() + '</th>').join('')`. -/
def thCells (header : List Char) : List Char :=
  ((splitKeep '|' header).map
    (fun h => "<th>".data ++ jsTrim h ++ "</th>".data)).flatten

/-- One body row: `row.split('|').filter(Boolean).map(c => '<td>' + c.trim()
+ '</td>')` wrapped in `<tr>…</tr>`. -/
def trRow (row : List Char) : List Char :=
  "<tr>".data ++
    ((splitKeep '|' row).map
      (fun c => "<td>".data ++ jsTrim c ++ "</td>".data)).flatten ++
  "</tr>".data

/-- The callback's full replacement. -/
def tableOut (header rowsTxt : List Char) : List Char :=
  "<table><thead><tr>".data ++ thCells header ++ "</tr></thead><tbody>".data ++
    ((splitCh '\n' (jsTrim rowsTxt)).map trRow).flatten ++
  "</tbody></table>".data

/-- The table matcher at the current position. -/
def tableM (s : List Char) : Option (List Char × Nat) :=
  if s.take 1 = ['|'] then
    let l₁ := s.takeWhile (· ≠ '\n')
    let r₁ := s.drop l₁.length
    if 3 ≤ l₁.length ∧ l₁.getLast? = some '|' ∧ r₁.take 1 = ['\n'] then
      let l₂ := (r₁.drop 1).takeWhile (· ≠ '\n')
      let r₂ := (r₁.drop 1).drop l₂.length
      if 3 ≤ l₂.length ∧ l₂.take 1 = ['|'] ∧ l₂.getLast? = some '|' ∧
         l₂.all isSepChar ∧ r₂.take 1 = ['\n'] then
        match rowsGo (r₂.drop 1) with
        | some (txt, m) =>
          some (tableOut (l₁.drop 1 |>.dropLast) txt,
            l₁.length + 1 + l₂.length + 1 + m)
        | none => none
      else none
    else none
  else none

/-- The table stage. -/
def tableStage (s : List Char) : List Char := scanRepl tableM s

/-! ### The fenced-code stage ` ```[\w]*\n([\s\S]*?)``` ` -/

/-- `\w` (the ASCII word class). -/
def isWordChar (c : Char) : Bool :=
  isDigit c || ('a' ≤ c && c ≤ 'z') || ('A' ≤ c && c ≤ 'Z') || c = '_'

/-- Lazy `([\s\S]*?)` up to the first closing triple backtick; returns the
content and characters consumed including the closing fence. -/
def upToTriple : List Char → Option (List Char × Nat)
  | [] => none
  | c :: rest =>
    if "```".data.isPrefixOf (c :: rest) then some ([], 3)
    else (upToTriple rest).map fun p => (c :: p.1, p.2 + 1)

/-- The fenced-code matcher at the current position. -/
def fenceM (s : List Char) : Option (List Char × Nat) :=
  if "```".data.isPrefixOf s then
    let lang := (s.drop 3).takeWhile isWordChar
    if ((s.drop 3).drop lang.length).take 1 = ['\n'] then
      (upToTriple ((s.drop 3).drop (lang.length + 1))).map fun p =>
        ("<pre><code>".data ++ p.1 ++ "</code></pre>".data,
          3 + lang.length + 1 + p.2)
    else none
  else none

/-- The fenced-code stage. -/
def fenceStage (s : List Char) : List Char := scanRepl fenceM s

/-! ### The final `<ul>` wrap `(<li>[\s\S]*?<\/li>\n?)+` → `<ul>$&</ul>` -/

/-- Lazy `[\s\S]*?` up to the first `</li>`; consumed count includes the five
characters of `</li>`. -/
def upToCloseLi : List Char → Option (List Char × Nat)
  | [] => none
  | c :: rest =>
    if "</li>".data.isPrefixOf (c :: rest) then some ([], 5)
    else (upToCloseLi rest).map fun p => (c :: p.1, p.2 + 1)

/-- One `(<li>[\s\S]*?<\/li>)` piece: characters consumed. -/
def liPiece (s : List Char) : Option Nat :=
  if "<li>".data.isPrefixOf s then
    (upToCloseLi (s.drop 4)).map fun p => 4 + p.2
  else none

/-- A list piece consumes at least its opening tag. -/
theorem liPiece_pos {s : List Char} {n : Nat} (h : liPiece s = some n) :
    1 ≤ n := by
  simp only [liPiece] at h
  split at h
  · rcases Option.map_eq_some'.mp h with ⟨p, -, hp⟩
    omega
  · exact absurd h (by simp)

/-- The greedy `+` over list pieces: total characters consumed, each piece's
optional trailing newline being taken when present. -/
def ulWrapGo (s : List Char) : Option Nat :=
  match h : liPiece s with
  | none => none
  | some n =>
    match h' : s.drop n with
    | '\n' :: s'' =>
      match ulWrapGo s'' with
      | some m => some (n + 1 + m)
      | none => some (n + 1)
    | _ =>
      match ulWrapGo (s.drop n) with
      | some m => some (n + m)
      | none => some n
termination_by s.length
decreasing_by
  · have hlen : s''.length + 1 = (s.drop n).length := by rw [h']; simp
    have : (s.drop n).length ≤ s.length := by simp [List.length_drop]
    omega
  · have hn : 1 ≤ n := liPiece_pos h
    have hs : s ≠ [] := by
      intro hnil
      rw [hnil] at h
      simp [liPiece] at h
    have : 0 < s.length := List.length_pos.mpr hs
    simp only [List.length_drop]
    omega

/-- The `<ul>` wrap matcher: `match => '<ul>' + match + '</ul>'`. -/
def ulWrapM (s : List Char) : Option (List Char × Nat) :=
  (ulWrapGo s).map fun n => ("<ul>".data ++ s.take n ++ "</ul>".data, n)

/-- The `<ul>` wrap stage. -/
def ulWrapStage (s : List Char) : List Char := scanRepl ulWrapM s

/-- The full replace chain applied after the HTML escape, in source order. -/
def mdPipeline (s : List Char) : List Char :=
  ulWrapStage (mapLines paraLine (fenceStage (tableStage (mapLines olLine
    (ulStage (mapLines bqLine (mapLines hrLine (codeStage (italStage
      (boldStage (mapLines h1Line (mapLines h2Line (mapLines h3Line s)))))))))))))

/-- `renderMarkdown` (lines 11–48): `none` models a `null`/`undefined`
argument; a falsy argument returns the empty string, otherwise the escaped
input runs through the replace chain. -/
def renderMarkdown : Option (List Char) → List Char
  | none => []
  | some s => if s = [] then [] else mdPipeline (escapeHtml s)

/-! ## Priority-tier classification (server side, spec §4.2) -/

/-- The three priority tiers. -/
inductive Tier
  | high
  | medium
  | low
deriving DecidableEq

/-- Modelled from the spec: the `priority_indicators` rule set of an
`IndustryProfile` — one list of indicators per tier (the server-side Python
that evaluates it is not in the repository snapshot). Indicators are abstract
(`α`); the audit supplies a satisfaction test over the computed
HardCheckResult/page signals. -/
structure PriorityRules (α : Type) where
  high : List α
  medium : List α
  low : List α

/-- Modelled from the spec: evaluate the rules in order High → Medium → Low;
the first tier whose every listed indicator is satisfied wins; default Low. -/
def classifyTier {α : Type} (rules : PriorityRules α) (sat : α → Bool) :
    Tier :=
  if rules.high.all sat then .high
  else if rules.medium.all sat then .medium
  else if rules.low.all sat then .low
  else .low

/-! ## The SSE client: stream lifecycle (`runStream` lines 129–173 and the
`btnRunAudit` handler lines 381–454) -/

/-- The three operations a stream can run. -/
inductive StreamKind
  | build
  | advise
  | audit
deriving DecidableEq

/-- The structured payload of a terminal `done` event, as the done handlers
read it (`result.file` for build, `result.markdown`/`result.total`/
`result.high` for audit; absent fields are `none`). -/
structure DoneResult where
  file : Option (List Char)
  markdown : Option (List Char)
  total : Nat
  high : Nat
deriving DecidableEq

/-- Events an `EventSource` can deliver to its listeners: tagged `log`
messages, a terminal `done`, a terminal server-sent `error`, or a transport
failure (`es.onerror`). -/
inductive SseEvent
  | log (text : List Char)
  | done (result : DoneResult)
  | fail (msg : List Char)
  | connError

/-- The server-sent terminal events. -/
def SseEvent.isTerminal : SseEvent → Bool
  | .done _ => true
  | .fail _ => true
  | _ => false

/-- The audit progress indicator: `state.auditDone`, `state.auditTotal`, the
`progressFill` width string and the `progressLabel` text. -/
structure ProgressUI where
  auditDone : Nat
  auditTotal : Nat
  fillWidth : List Char
  label : List Char
deriving DecidableEq

/-- The leading ordinal marker `^\[(\d+)\/(\d+)\]`: the two parsed integers,
or `none` when the line does not begin with the marker. -/
def matchOrdinal (text : List Char) : Option (Nat × Nat) :=
  if text.take 1 = ['['] then
    let r := text.drop 1
    let ds₁ := r.takeWhile isDigit
    if ds₁ = [] then none
    else
      let r₁ := r.drop ds₁.length
      if r₁.take 1 = ['/'] then
        let r₂ := r₁.drop 1
        let ds₂ := r₂.takeWhile isDigit
        if ds₂ = [] then none
        else if (r₂.drop ds₂.length).take 1 = [']'] then
          some (digitsValGo 10 isDigit 0 ds₁, digitsValGo 10 isDigit 0 ds₂)
        else none
      else none
  else none

/-- `Math.round((done / total) * 100)` for the nonnegative operands the
handler produces: round half up, embedded exactly on rationals;
`total = 0` yields the float `NaN`, rendered as the string `NaN`. -/
def pctString (done total : Nat) : List Char :=
  if total = 0 then "NaN".data
  else (toString ((200 * done + total) / (2 * total))).data

/-- The audit `message` handler's progress update (lines 419–426): a leading
`[i/m]` marker drives the counters, bar width and label; any other line
leaves the indicator untouched. -/
def auditLogStep (p : ProgressUI) (text : List Char) : ProgressUI :=
  match matchOrdinal text with
  | none => p
  | some (i, m) =>
    { auditDone := i
      auditTotal := m
      fillWidth := pctString i m ++ "%".data
      label := (toString i).data ++ " / ".data ++ (toString m).data }

/-- `result.file.split(/[\\/]/).pop()`: the last path component. -/
def jsBasename (f : List Char) : List Char :=
  ((f.splitOn '/').map (·.splitOn '\\')).flatten.getLastD []

/-- The build done handler's terminal line (lines 321–323). -/
def buildDoneMessage (r : DoneResult) : List Char :=
  match r.file with
  | some f => "[✓] Targets saved → ".data ++ jsBasename f
  | none => "[✓] Dry run complete".data

/-- The audit preview placeholder injected on a dry run (line 444). -/
def dryRunPlaceholder : List Char :=
  "<p class=\"preview-placeholder\">Dry run complete. Remove dry-run to generate a real report.</p>".data

/-- The client's observable state: which `EventSource` objects are still open
(identified by creation order, tagged with the operation they stream),
`state.currentStream`, a counter of created sources, the status bar, the
terminal log of the active panel, the audit progress indicator and the audit
preview pane. -/
structure Client where
  openStreams : List (Nat × StreamKind)
  currentStream : Option Nat
  nextId : Nat
  status : List Char
  termLines : List (List Char × List Char)
  progress : ProgressUI
  auditPreview : List Char
deriving DecidableEq

/-- `if (state.currentStream) { state.currentStream.close();
state.currentStream = null; }` — lines 131 and 403. -/
def closeCurrent (c : Client) : Client :=
  match c.currentStream with
  | none => c
  | some i =>
    { c with
      openStreams := c.openStreams.filter (fun p => p.1 ≠ i)
      currentStream := none }

/-- The status line a fresh run shows. -/
def startStatus : StreamKind → List Char
  | .build => "Running…".data
  | .advise => "Running…".data
  | .audit => "Auditing…".data

/-- Starting a run (`runStream` lines 129–142, `btnRunAudit` lines 381–411):
close the current stream if any, clear the terminal, set the status, reset
the audit progress for an audit run, then open and record a new
`EventSource`. -/
def startStream (k : StreamKind) (limit : Nat) (c : Client) : Client :=
  let c₁ := closeCurrent c
  { c₁ with
    openStreams := (c₁.nextId, k) :: c₁.openStreams
    currentStream := some c₁.nextId
    nextId := c₁.nextId + 1
    status := startStatus k
    termLines := []
    progress :=
      match k with
      | .audit =>
        { auditDone := 0
          auditTotal := limit
          fillWidth := "0%".data
          label := "0 / ".data ++ (toString limit).data }
      | _ => c₁.progress }

/-- Close one `EventSource` and null `state.currentStream` — the body every
`done`/`error` listener starts with. -/
def closeStream (i : Nat) (c : Client) : Client :=
  { c with
    openStreams := c.openStreams.filter (fun p => p.1 ≠ i)
    currentStream := none }

/-- A tagged `log` message (lines 144–147 and 413–428): append the classified
line to the terminal; on an audit stream also run the progress update. -/
def handleLog (k : StreamKind) (text : List Char) (c : Client) : Client :=
  let c₁ := { c with termLines := c.termLines ++ [(text, classifyLog text)] }
  match k with
  | .audit => { c₁ with progress := auditLogStep c₁.progress text }
  | _ => c₁

/-- A terminal `done` event (lines 149–155, 320–325, 430–447): close and
clear the stream, then run the per-operation completion handler. -/
def handleDone (k : StreamKind) (i : Nat) (r : DoneResult) (c : Client) :
    Client :=
  let c₁ := closeStream i c
  match k with
  | .build =>
    { c₁ with
      status := "Done".data
      termLines := c₁.termLines ++ [(buildDoneMessage r, "done".data)] }
  | .advise => { c₁ with status := "Done".data }
  | .audit =>
    let c₂ :=
      { c₁ with
        status := "Audit complete".data
        progress :=
          { c₁.progress with
            fillWidth := "100%".data
            label := (toString c₁.progress.auditTotal).data ++ " / ".data ++
              (toString c₁.progress.auditTotal).data } }
    match r.markdown with
    | some md =>
      { c₂ with
        auditPreview := renderMarkdown (some md)
        termLines := c₂.termLines ++
          [("[✓] Audit complete — ".data ++ (toString r.total).data ++
            " audited, ".data ++ (toString r.high).data ++
            " high priority".data, "done".data)] }
    | none => { c₂ with auditPreview := dryRunPlaceholder }

/-- A terminal server-sent `error` event (lines 157–166, 449–453): close and
clear the stream, set the error status, log the message. -/
def handleFail (i : Nat) (msg : List Char) (c : Client) : Client :=
  let c₁ := closeStream i c
  { c₁ with
    status := "Error".data
    termLines := c₁.termLines ++
      [("[!] ".data ++ msg, "error".data)] }

/-- A transport error (`es.onerror`, lines 168–172): if the source is already
closed, return; otherwise set the status and close it — `state.currentStream`
is left pointing at the closed source. -/
def handleConnError (i : Nat) (c : Client) : Client :=
  { c with
    openStreams := c.openStreams.filter (fun p => p.1 ≠ i)
    status := "Connection error".data }

/-- Delivery of one event on `EventSource` `i`: a closed source dispatches
nothing; an open one runs the listener `runStream`/`btnRunAudit` attached. -/
def deliver (c : Client) (i : Nat) (e : SseEvent) : Client :=
  match c.openStreams.lookup i with
  | none => c
  | some k =>
    match e with
    | .log text => handleLog k text c
    | .done r => handleDone k i r c
    | .fail msg => handleFail i msg c
    | .connError => handleConnError i c

/-! ## Shared concrete instances for the witnesses -/

/-- A client with one open build stream — the state right after a run starts. -/
def sampleClient : Client :=
  { openStreams := [(0, .build)]
    currentStream := some 0
    nextId := 1
    status := []
    termLines := []
    progress := { auditDone := 0, auditTotal := 0, fillWidth := [], label := [] }
    auditPreview := [] }

/-- A parameter map exercising every kept/dropped value shape. -/
def sampleParams : List (List Char × JsVal) :=
  [("a".data, .str "x".data), ("b".data, .str []), ("c".data, .bool false),
   ("d".data, .num 0), ("e".data, .null)]

/-! ## Claim theorems -/

/-- C1: for every industry rule set and every signal-satisfaction vector,
priority-tier classification is deterministic and total — the rules are
evaluated High → Medium → Low, the first tier whose every listed indicator is
satisfied wins, and the result defaults to Low when no tier matches. -/
theorem classifyTier_spec {α : Type} (rules : PriorityRules α)
    (sat : α → Bool) :
    (∃! t : Tier, classifyTier rules sat = t) ∧
    (classifyTier rules sat = .high ∨ classifyTier rules sat = .medium ∨
      classifyTier rules sat = .low) ∧
    (rules.high.all sat = true → classifyTier rules sat = .high) ∧
    (rules.high.all sat = false → rules.medium.all sat = true →
      classifyTier rules sat = .medium) ∧
    (rules.high.all sat = false → rules.medium.all sat = false →
      rules.low.all sat = true → classifyTier rules sat = .low) ∧
    (rules.high.all sat = false → rules.medium.all sat = false →
      rules.low.all sat = false → classifyTier rules sat = .low) := by
  refine ⟨⟨classifyTier rules sat, rfl, fun t ht => ht.symm⟩, ?_, ?_, ?_, ?_, ?_⟩
  all_goals
    unfold classifyTier
    rcases hh : rules.high.all sat <;> rcases hm : rules.medium.all sat <;>
      rcases hl : rules.low.all sat <;> simp [hh, hm, hl]

/-- C1 witness: a profile whose High indicator fails and whose Medium
indicator holds classifies Medium. -/
theorem classifyTier_spec_witness :
    classifyTier (PriorityRules.mk [1] [2] ([] : List Nat)) (fun n => n == 2) =
      .medium :=
  (classifyTier_spec _ _).2.2.2.1 (by decide) (by decide)

/-- C4 counterexample: the line `targets saved` carries none of the
documented leading markers, yet the classifier assigns it the success class
instead of leaving it unclassified. -/
theorem classifyLog_not_leading_markers :
    classifyLog "targets saved".data = "done".data ∧
    "done".data ≠ ([] : List Char) := by
  constructor
  · decide
  · decide

/-- C4 (amended): severity is assigned by ordered, case-insensitive substring
containment over the whole line — success when the lowercased line contains
`[✓]`, `complete` or `saved`; otherwise error when it contains `[!]`, `error`
or `failed`; otherwise caution when it contains `[dry run]` or `warning`;
otherwise informational when it contains `[+]`, `[>]` or `[~]`; otherwise
unclassified — and each line receives exactly one classification. -/
theorem classifyLog_substring_spec (text : List Char) :
    ((includesSub (jsToLowerStr text) "[✓]".data ||
      includesSub (jsToLowerStr text) "complete".data ||
      includesSub (jsToLowerStr text) "saved".data) = true →
        classifyLog text = "done".data) ∧
    ((includesSub (jsToLowerStr text) "[✓]".data ||
      includesSub (jsToLowerStr text) "complete".data ||
      includesSub (jsToLowerStr text) "saved".data) = false →
     (includesSub (jsToLowerStr text) "[!]".data ||
      includesSub (jsToLowerStr text) "error".data ||
      includesSub (jsToLowerStr text) "failed".data) = true →
        classifyLog text = "error".data) ∧
    ((includesSub (jsToLowerStr text) "[✓]".data ||
      includesSub (jsToLowerStr text) "complete".data ||
      includesSub (jsToLowerStr text) "saved".data) = false →
     (includesSub (jsToLowerStr text) "[!]".data ||
      includesSub (jsToLowerStr text) "error".data ||
      includesSub (jsToLowerStr text) "failed".data) = false →
     (includesSub (jsToLowerStr text) "[dry run]".data ||
      includesSub (jsToLowerStr text) "warning".data) = true →
        classifyLog text = "warn".data) ∧
    ((includesSub (jsToLowerStr text) "[✓]".data ||
      includesSub (jsToLowerStr text) "complete".data ||
      includesSub (jsToLowerStr text) "saved".data) = false →
     (includesSub (jsToLowerStr text) "[!]".data ||
      includesSub (jsToLowerStr text) "error".data ||
      includesSub (jsToLowerStr text) "failed".data) = false →
     (includesSub (jsToLowerStr text) "[dry run]".data ||
      includesSub (jsToLowerStr text) "warning".data) = false →
     (includesSub (jsToLowerStr text) "[+]".data ||
      includesSub (jsToLowerStr text) "[>]".data ||
      includesSub (jsToLowerStr text) "[~]".data) = true →
        classifyLog text = "info".data) ∧
    ((includesSub (jsToLowerStr text) "[✓]".data ||
      includesSub (jsToLowerStr text) "complete".data ||
      includesSub (jsToLowerStr text) "saved".data) = false →
     (includesSub (jsToLowerStr text) "[!]".data ||
      includesSub (jsToLowerStr text) "error".data ||
      includesSub (jsToLowerStr text) "failed".data) = false →
     (includesSub (jsToLowerStr text) "[dry run]".data ||
      includesSub (jsToLowerStr text) "warning".data) = false →
     (includesSub (jsToLowerStr text) "[+]".data ||
      includesSub (jsToLowerStr text) "[>]".data ||
      includesSub (jsToLowerStr text) "[~]".data) = false →
        classifyLog text = []) ∧
    (classifyLog text = "done".data ∨ classifyLog text = "error".data ∨
     classifyLog text = "warn".data ∨ classifyLog text = "info".data ∨
     classifyLog text = []) := by
  refine ⟨?_, ?_, ?_, ?_, ?_, ?_⟩
  all_goals
    simp only [classifyLog]
    rcases h₁ : (includesSub (jsToLowerStr text) "[✓]".data ||
      includesSub (jsToLowerStr text) "complete".data ||
      includesSub (jsToLowerStr text) "saved".data) <;>
    rcases h₂ : (includesSub (jsToLowerStr text) "[!]".data ||
      includesSub (jsToLowerStr text) "error".data ||
      includesSub (jsToLowerStr text) "failed".data) <;>
    rcases h₃ : (includesSub (jsToLowerStr text) "[dry run]".data ||
      includesSub (jsToLowerStr text) "warning".data) <;>
    rcases h₄ : (includesSub (jsToLowerStr text) "[+]".data ||
      includesSub (jsToLowerStr text) "[>]".data ||
      includesSub (jsToLowerStr text) "[~]".data) <;>
    simp [h₁, h₂, h₃, h₄]

/-- C4 witness: a plain informational line takes the fourth branch. -/
theorem classifyLog_substring_spec_witness :
    classifyLog "[~] fetching page".data = "info".data :=
  (classifyLog_substring_spec "[~] fetching page".data).2.2.2.1
    (by decide) (by decide) (by decide) (by decide)

/-- C5: when the audit `limit` input is absent (empty) or does not parse as
an integer, the request uses the documented default of 10. -/
theorem auditLimit_default :
    (∀ s : List Char, jsParseInt s = none → auditLimit s = 10) ∧
    jsParseInt [] = none ∧ auditLimit [] = 10 := by
  refine ⟨fun s h => ?_, by decide, by decide⟩
  simp [auditLimit, h]

/-- C5 witness: a non-numeric input falls back to 10. -/
theorem auditLimit_default_witness : auditLimit "abc".data = 10 :=
  auditLimit_default.1 "abc".data (by decide)

/-- Modelled from the spec: the behaviour of a server-side dry run — the
operation performs zero external calls and its `done` result carries no
fetched or audited content (the Python engine is not in the repository
snapshot). -/
structure DryRunBehavior where
  externalCalls : Nat
  result : DoneResult

/-- Modelled from the spec: a `dry_run = true` build — no external calls, no
output file in the result. -/
def specDryRunBuild : DryRunBehavior :=
  { externalCalls := 0
    result := { file := none, markdown := none, total := 0, high := 0 } }

/-- Modelled from the spec: a `dry_run = true` audit — no external calls, no
report markdown in the result. -/
def specDryRunAudit : DryRunBehavior :=
  { externalCalls := 0
    result := { file := none, markdown := none, total := 0, high := 0 } }

/-- C7: dry-run build and audit perform zero external calls and their `done`
results carry no content; on such results the client reports a dry-run
completion instead of a saved-targets path, and shows the dry-run placeholder
instead of rendering a report. -/
theorem dry_run_no_content :
    specDryRunBuild.externalCalls = 0 ∧
    specDryRunBuild.result.file = none ∧
    buildDoneMessage specDryRunBuild.result = "[✓] Dry run complete".data ∧
    specDryRunAudit.externalCalls = 0 ∧
    specDryRunAudit.result.markdown = none ∧
    (∀ (c : Client) (i : Nat),
      (handleDone .audit i specDryRunAudit.result c).auditPreview =
        dryRunPlaceholder) := by
  refine ⟨rfl, rfl, rfl, rfl, rfl, fun c i => ?_⟩
  simp [handleDone, specDryRunAudit, closeStream]

/-- Removing every pair keyed `i` makes `lookup i` fail. -/
theorem lookup_filter_ne {β : Type} (l : List (Nat × β)) (i : Nat) :
    (l.filter fun p => p.1 ≠ i).lookup i = none := by
  induction l with
  | nil => rfl
  | cons p t ih =>
    obtain ⟨a, b⟩ := p
    rw [List.filter_cons]
    by_cases h : a = i
    · simp only [h, ne_eq, not_true_eq_false, decide_False]
      exact ih
    · simp only [ne_eq, h, not_false_eq_true, decide_True]
      have hba : (i == a) = false := by simp [Ne.symm h]
      simpa [List.lookup, hba] using ih

/-- A successful `lookup` exhibits a member. -/
theorem lookup_mem {β : Type} {l : List (Nat × β)} {i : Nat} {k : β}
    (h : l.lookup i = some k) : (i, k) ∈ l := by
  induction l with
  | nil => simp [List.lookup] at h
  | cons p t ih =>
    obtain ⟨a, b⟩ := p
    by_cases he : i = a
    · have hba : (i == a) = true := by simp [he]
      simp [List.lookup, hba] at h
      subst h
      simp [he]
    · have hba : (i == a) = false := by simp [he]
      simp [List.lookup, hba] at h
      exact List.mem_cons_of_mem _ (ih h)

/-- Every `done` handler closes the stream and nulls `state.currentStream`,
leaving the creation counter alone. -/
theorem handleDone_streams (k : StreamKind) (i : Nat) (r : DoneResult)
    (c : Client) :
    (handleDone k i r c).openStreams =
      c.openStreams.filter (fun p => p.1 ≠ i) ∧
    (handleDone k i r c).currentStream = none ∧
    (handleDone k i r c).nextId = c.nextId := by
  cases k with
  | build => exact ⟨rfl, rfl, rfl⟩
  | advise => exact ⟨rfl, rfl, rfl⟩
  | audit =>
    rcases hmd : r.markdown with _ | md <;>
      simp [handleDone, closeStream, hmd]

/-- The `log` handler leaves the stream bookkeeping untouched. -/
theorem handleLog_streams (k : StreamKind) (text : List Char) (c : Client) :
    (handleLog k text c).openStreams = c.openStreams ∧
    (handleLog k text c).currentStream = c.currentStream ∧
    (handleLog k text c).nextId = c.nextId := by
  cases k <;> exact ⟨rfl, rfl, rfl⟩

/-- A closed `EventSource` delivers nothing. -/
theorem deliver_closed (c : Client) (i : Nat) (e : SseEvent)
    (h : c.openStreams.lookup i = none) : deliver c i e = c := by
  simp [deliver, h]

/-- C2: once a terminal `done` or `error` event is delivered on an open
stream, the client closes that `EventSource` and clears
`state.currentStream`; afterwards no further event of that stream — in
particular no second terminal event — is processed. -/
theorem terminal_event_closes_stream (c : Client) (i : Nat) (k : StreamKind)
    (e : SseEvent) (hopen : c.openStreams.lookup i = some k)
    (hterm : e.isTerminal = true) :
    (deliver c i e).openStreams.lookup i = none ∧
    (deliver c i e).currentStream = none ∧
    ∀ e' : SseEvent, deliver (deliver c i e) i e' = deliver c i e := by
  have hstreams : (deliver c i e).openStreams =
      c.openStreams.filter (fun p => p.1 ≠ i) ∧
      (deliver c i e).currentStream = none := by
    cases e with
    | log _ => simp [SseEvent.isTerminal] at hterm
    | connError => simp [SseEvent.isTerminal] at hterm
    | done r =>
      simp only [deliver, hopen]
      exact ⟨(handleDone_streams k i r c).1, (handleDone_streams k i r c).2.1⟩
    | fail msg =>
      simp only [deliver, hopen]
      exact ⟨rfl, rfl⟩
  have h1 : (deliver c i e).openStreams.lookup i = none := by
    rw [hstreams.1]
    exact lookup_filter_ne _ _
  exact ⟨h1, hstreams.2, fun e' => deliver_closed _ i e' h1⟩

/-- C2 witness: delivering `done` on the sample client's open stream closes
it, clears the current stream, and makes any following delivery a no-op. -/
theorem terminal_event_closes_stream_witness :
    (deliver sampleClient 0
      (.done { file := none, markdown := none, total := 0, high := 0 })).currentStream = none ∧
    deliver (deliver sampleClient 0
        (.done { file := none, markdown := none, total := 0, high := 0 })) 0
        (.done { file := none, markdown := none, total := 0, high := 0 }) =
      deliver sampleClient 0
        (.done { file := none, markdown := none, total := 0, high := 0 }) :=
  ⟨(terminal_event_closes_stream sampleClient 0 .build
      (.done { file := none, markdown := none, total := 0, high := 0 })
      rfl rfl).2.1,
   (terminal_event_closes_stream sampleClient 0 .build
      (.done { file := none, markdown := none, total := 0, high := 0 })
      rfl rfl).2.2 _⟩

/-- The client-state invariant: every open `EventSource` is the one
`state.currentStream` references, stream identifiers are distinct and below
the creation counter. -/
def ClientInv (c : Client) : Prop :=
  (∀ p ∈ c.openStreams, c.currentStream = some p.1) ∧
  (c.openStreams.map Prod.fst).Nodup ∧
  ∀ p ∈ c.openStreams, p.1 < c.nextId

/-- Closing the current stream leaves nothing open. -/
theorem closeCurrent_empty {c : Client} (h : ClientInv c) :
    (closeCurrent c).openStreams = [] := by
  rcases hc : c.currentStream with _ | i
  · cases ho : c.openStreams with
    | nil => simp [closeCurrent, hc, ho]
    | cons p t =>
      have := h.1 p (by rw [ho]; exact List.mem_cons_self p t)
      rw [hc] at this
      exact absurd this (by simp)
  · simp only [closeCurrent, hc]
    apply List.filter_eq_nil_iff.mpr
    intro p hp
    have := h.1 p hp
    rw [hc] at this
    simp only [Option.some.injEq] at this
    simp [this]

/-- `closeCurrent` does not touch the creation counter or the progress pane. -/
theorem closeCurrent_nextId (c : Client) :
    (closeCurrent c).nextId = c.nextId ∧
    (closeCurrent c).progress = c.progress := by
  rcases hc : c.currentStream <;> simp [closeCurrent, hc]

/-- C3: starting a build, advise or audit run closes the previously open
`EventSource` before the new one opens, and every reachable client operation
preserves the at-most-one-open-stream invariant. -/
theorem single_active_stream (c : Client) (k : StreamKind) (lim : Nat)
    (h : ClientInv c) :
    (closeCurrent c).openStreams = [] ∧
    (startStream k lim c).openStreams = [(c.nextId, k)] ∧
    ClientInv (startStream k lim c) ∧
    (∀ (i : Nat) (e : SseEvent), ClientInv (deliver c i e)) ∧
    c.openStreams.length ≤ 1 := by
  have hempty := closeCurrent_empty h
  have hnext := (closeCurrent_nextId c).1
  refine ⟨hempty, ?_, ?_, ?_, ?_⟩
  · simp [startStream, hempty, hnext]
  · refine ⟨?_, ?_, ?_⟩ <;> simp [startStream, hempty, hnext, ClientInv]
  · intro i e
    rcases hl : c.openStreams.lookup i with _ | k'
    · simpa [deliver, hl] using h
    · have hmem := lookup_mem hl
      have hcur : c.currentStream = some i := h.1 (i, k') hmem
      have hfilter : (c.openStreams.filter fun p => p.1 ≠ i) = [] := by
        apply List.filter_eq_nil_iff.mpr
        intro p hp
        have hpi := h.1 p hp
        rw [hcur] at hpi
        have : p.1 = i := by simpa using hpi.symm
        simp [this]
      cases e with
      | log text =>
        have hf := handleLog_streams k' text c
        simp only [deliver, hl]
        exact ⟨fun p hp => by rw [hf.2.1]; exact h.1 p (hf.1 ▸ hp),
          by rw [hf.1]; exact h.2.1,
          fun p hp => by rw [hf.2.2]; exact h.2.2 p (hf.1 ▸ hp)⟩
      | done r =>
        have hf := handleDone_streams k' i r c
        simp only [deliver, hl]
        refine ⟨fun p hp => ?_, ?_, fun p hp => ?_⟩
        · rw [hf.1, hfilter] at hp
          exact absurd hp (List.not_mem_nil p)
        · rw [hf.1, hfilter]
          exact List.nodup_nil
        · rw [hf.1, hfilter] at hp
          exact absurd hp (List.not_mem_nil p)
      | fail msg =>
        simp only [deliver, hl]
        refine ⟨fun p hp => ?_, ?_, fun p hp => ?_⟩
        · rw [show (handleFail i msg c).openStreams =
              c.openStreams.filter (fun p => p.1 ≠ i) from rfl, hfilter] at hp
          exact absurd hp (List.not_mem_nil p)
        · rw [show (handleFail i msg c).openStreams =
              c.openStreams.filter (fun p => p.1 ≠ i) from rfl, hfilter]
          exact List.nodup_nil
        · rw [show (handleFail i msg c).openStreams =
              c.openStreams.filter (fun p => p.1 ≠ i) from rfl, hfilter] at hp
          exact absurd hp (List.not_mem_nil p)
      | connError =>
        simp only [deliver, hl]
        refine ⟨fun p hp => ?_, ?_, fun p hp => ?_⟩
        · rw [show (handleConnError i c).openStreams =
              c.openStreams.filter (fun p => p.1 ≠ i) from rfl, hfilter] at hp
          exact absurd hp (List.not_mem_nil p)
        · rw [show (handleConnError i c).openStreams =
              c.openStreams.filter (fun p => p.1 ≠ i) from rfl, hfilter]
          exact List.nodup_nil
        · rw [show (handleConnError i c).openStreams =
              c.openStreams.filter (fun p => p.1 ≠ i) from rfl, hfilter] at hp
          exact absurd hp (List.not_mem_nil p)
  · match ho : c.openStreams with
    | [] => simp
    | [p] => simp
    | p :: q :: t =>
      have hp := h.1 p (by rw [ho]; exact List.mem_cons_self _ _)
      have hq := h.1 q (by rw [ho]; exact List.mem_cons_of_mem _ (List.mem_cons_self _ _))
      rw [hp] at hq
      have heq : p.1 = q.1 := by simpa using hq
      have hnd := h.2.1
      rw [ho] at hnd
      simp only [List.map_cons, List.nodup_cons, List.mem_cons] at hnd
      exact absurd (Or.inl heq) hnd.1

/-- C3 witness: starting an advise run on the sample client (one open build
stream) yields exactly one open stream, the fresh one. -/
theorem single_active_stream_witness :
    (startStream .advise 0 sampleClient).openStreams = [(1, .advise)] :=
  (single_active_stream sampleClient .advise 0
    ⟨by decide, by decide, by decide⟩).2.1

/-- A run of `p`-characters followed by a `p`-failing character is exactly
what `takeWhile p` keeps. -/
theorem takeWhile_all_append (p : Char → Bool) (l : List Char) (c : Char)
    (r : List Char) (hl : ∀ x ∈ l, p x = true) (hc : p c = false) :
    (l ++ c :: r).takeWhile p = l := by
  induction l with
  | nil => simp [List.takeWhile, hc]
  | cons x t ih =>
    rw [List.cons_append, List.takeWhile_cons,
      hl x (List.mem_cons_self _ _)]
    rw [ih fun y hy => hl y (List.mem_cons_of_mem _ hy)]
    simp

/-- The handler's `Math.round((done / total) * 100)`, evaluated exactly on
rationals, is the round-half-up of `100·i/m`. -/
theorem pct_round (i m : Nat) (hm : 0 < m) :
    (((200 * i + m) / (2 * m) : ℕ) : ℤ) = round ((100 * i : ℚ) / (m : ℚ)) := by
  rw [round_eq]
  have hm' : (m : ℚ) ≠ 0 := Nat.cast_ne_zero.mpr hm.ne'
  have hx : (100 * i : ℚ) / (m : ℚ) + 1 / 2 =
      ((200 * i + m : ℕ) : ℚ) / ((2 * m : ℕ) : ℚ) := by
    push_cast
    field_simp
    ring
  rw [hx]
  rw [← Int.natCast_floor_eq_floor (by positivity)]
  rw [Nat.floor_div_eq_div]

/-- C6: an audit log line beginning with the ordinal marker `[i/m]` (two
digit runs) sets the progress bar width to round(100·i/m) percent and the
label to `i / m`, while a line without the leading marker leaves the
indicator unchanged. -/
theorem audit_progress_spec (p : ProgressUI) :
    (∀ (ds₁ ds₂ rest : List Char), ds₁ ≠ [] → ds₂ ≠ [] →
      (∀ c ∈ ds₁, isDigit c = true) → (∀ c ∈ ds₂, isDigit c = true) →
      ∀ i m : Nat, i = digitsValGo 10 isDigit 0 ds₁ →
        m = digitsValGo 10 isDigit 0 ds₂ → 0 < m →
        auditLogStep p ('[' :: ds₁ ++ '/' :: ds₂ ++ ']' :: rest) =
          { auditDone := i
            auditTotal := m
            fillWidth := (toString ((200 * i + m) / (2 * m))).data ++ "%".data
            label := (toString i).data ++ " / ".data ++ (toString m).data }) ∧
    (∀ i m : Nat, 0 < m →
      (((200 * i + m) / (2 * m) : ℕ) : ℤ) = round ((100 * i : ℚ) / (m : ℚ))) ∧
    (∀ text : List Char, matchOrdinal text = none → auditLogStep p text = p) := by
  refine ⟨?_, fun i m hm => pct_round i m hm, fun text h => ?_⟩
  · intro ds₁ ds₂ rest h₁ h₂ hd₁ hd₂ i m hi hm hmpos
    have hmatch : matchOrdinal ('[' :: ds₁ ++ '/' :: ds₂ ++ ']' :: rest) =
        some (digitsValGo 10 isDigit 0 ds₁, digitsValGo 10 isDigit 0 ds₂) := by
      have hassoc : ('[' :: ds₁ ++ '/' :: ds₂ ++ ']' :: rest : List Char) =
          '[' :: (ds₁ ++ '/' :: (ds₂ ++ ']' :: rest)) := by simp
      rw [hassoc]
      simp only [matchOrdinal]
      rw [show ('[' :: (ds₁ ++ '/' :: (ds₂ ++ ']' :: rest))).take 1 = ['[']
        from rfl]
      rw [if_pos rfl]
      rw [show ('[' :: (ds₁ ++ '/' :: (ds₂ ++ ']' :: rest))).drop 1 =
        ds₁ ++ '/' :: (ds₂ ++ ']' :: rest) from rfl]
      rw [takeWhile_all_append isDigit ds₁ '/' (ds₂ ++ ']' :: rest) hd₁
        (by decide)]
      rw [if_neg h₁]
      rw [List.drop_left]
      rw [show ('/' :: (ds₂ ++ ']' :: rest)).take 1 = ['/'] from rfl]
      rw [if_pos rfl]
      rw [show ('/' :: (ds₂ ++ ']' :: rest)).drop 1 = ds₂ ++ ']' :: rest from
        rfl]
      rw [takeWhile_all_append isDigit ds₂ ']' rest hd₂ (by decide)]
      rw [if_neg h₂]
      rw [List.drop_left]
      simp
    rw [auditLogStep, hmatch]
    subst hi hm
    simp only [pctString, if_neg hmpos.ne']
  · rw [auditLogStep, h]

/-- C6 witness: the line `[2/4] url` fills the bar to 50% and labels it
`2 / 4`. -/
theorem audit_progress_spec_witness :
    auditLogStep
        { auditDone := 9, auditTotal := 9, fillWidth := "9%".data,
          label := "9 / 9".data } "[2/4] url".data =
      { auditDone := 2, auditTotal := 4, fillWidth := "50%".data,
        label := "2 / 4".data } := by
  have h := (audit_progress_spec
    { auditDone := 9, auditTotal := 9, fillWidth := "9%".data,
      label := "9 / 9".data }).1 ['2'] ['4'] " url".data
    (by decide) (by decide) (by decide) (by decide) 2 4 (by decide) (by decide)
    (by decide)
  exact h.trans (by decide)

/-- Underscores and copied non-whitespace survive the whitespace-run
replacement: its output never contains JS whitespace. -/
theorem replWsAux_no_ws (l : List Char) :
    ∀ (b : Bool), ∀ c ∈ replWsAux b l, isJsWs c = false := by
  induction l with
  | nil =>
    intro b c hc
    simp [replWsAux] at hc
  | cons c rest ih =>
    intro b d hd
    by_cases h : isJsWs c
    · cases b
      · rw [replWsAux, if_pos h, if_neg (by simp)] at hd
        rcases List.mem_cons.mp hd with h1 | h1
        · subst h1; decide
        · exact ih true d h1
      · rw [replWsAux, if_pos h, if_pos rfl] at hd
        exact ih true d hd
    · rw [replWsAux, if_neg h] at hd
      rcases List.mem_cons.mp hd with h1 | h1
      · subst h1
        simpa using h
      · exact ih false d h1

/-- `Char.ofNat` of a valid scalar value round-trips through `toNat`. -/
theorem toNat_ofNat_valid (n : Nat) (h : n < 55296) :
    (Char.ofNat n).toNat = n := by
  have hv : n.isValidChar := Or.inl h
  simp only [Char.ofNat, dif_pos hv, Char.ofNatAux, Char.toNat, UInt32.toNat]
  exact BitVec.toNat_ofNatLt _ _

/-- `toLowerCase` is idempotent (ASCII embedding). -/
theorem toLower_idem (c : Char) : c.toLower.toLower = c.toLower := by
  simp only [Char.toLower]
  by_cases h : c.toNat ≥ 65 ∧ c.toNat ≤ 90
  · rw [if_pos h]
    have ht : (Char.ofNat (c.toNat + 32)).toNat = c.toNat + 32 :=
      toNat_ofNat_valid _ (by omega)
    rw [if_neg (by rw [ht]; omega)]
  · rw [if_neg h, if_neg h]

/-- Lowercasing does not create or destroy whitespace. -/
theorem isJsWs_toLower (c : Char) : isJsWs c.toLower = isJsWs c := by
  simp only [Char.toLower]
  by_cases h : c.toNat ≥ 65 ∧ c.toNat ≤ 90
  · rw [if_pos h]
    have ht := toNat_ofNat_valid (c.toNat + 32) (by omega)
    have hl : isJsWs (Char.ofNat (c.toNat + 32)) = false := by
      simp [isJsWs, ht]
      omega
    have hr : isJsWs c = false := by
      simp [isJsWs]
      omega
    rw [hl, hr]
  · rw [if_neg h]

/-- C8: the submitted slug is the entered value trimmed, whitespace runs
replaced by underscores, and lowercased; the result is whitespace-free and a
fixed point of lowercasing, and saving is rejected when it is empty. -/
theorem slug_stable (s y : List Char) :
    (∀ c ∈ normalizeSlug s, isJsWs c = false) ∧
    jsToLowerStr (normalizeSlug s) = normalizeSlug s ∧
    (normalizeSlug s = [] → modalSave s y = none) ∧
    (∀ slug yaml, modalSave s y = some (slug, yaml) →
      slug = normalizeSlug s ∧ yaml = y) := by
  refine ⟨?_, ?_, ?_, ?_⟩
  · intro c hc
    rcases List.mem_map.mp hc with ⟨d, hd, hdc⟩
    rw [← hdc, jsToLower, isJsWs_toLower]
    exact replWsAux_no_ws _ false d hd
  · simp only [jsToLowerStr, normalizeSlug, List.map_map]
    apply List.map_congr_left
    intro c _
    exact toLower_idem c
  · intro h
    simp [modalSave, h]
  · intro slug yaml h
    simp only [modalSave] at h
    split at h
    · exact absurd h (by simp)
    · split at h
      · exact absurd h (by simp)
      · have hp := Option.some.inj h
        exact ⟨(Prod.mk.injEq _ _ _ _ ▸ hp).1.symm,
          (Prod.mk.injEq _ _ _ _ ▸ hp).2.symm⟩

/-- C8 witness: an all-whitespace slug normalizes to empty and the save is
rejected. -/
theorem slug_stable_witness : modalSave "   ".data "x: 1".data = none :=
  (slug_stable "   ".data "x: 1".data).2.2.1 (by decide)

/-- Appending under a fresh key. -/
theorem setParam_append (k v : List Char)
    (acc : List (List Char × List Char)) (h : ∀ p ∈ acc, p.1 ≠ k) :
    setParam k v acc = acc ++ [(k, v)] := by
  induction acc with
  | nil => rfl
  | cons q t ih =>
    obtain ⟨k', v'⟩ := q
    rw [setParam, if_neg (h (k', v') (List.mem_cons_self _ _))]
    rw [ih fun p hp => h p (List.mem_cons_of_mem _ hp)]
    rfl

/-- The `forEach`/`set` loop on distinct keys is a filter-then-stringify. -/
theorem buildQuery_foldl (params : List (List Char × JsVal)) :
    ∀ acc : List (List Char × List Char),
    (params.map Prod.fst).Nodup →
    (∀ p ∈ params, ∀ q ∈ acc, q.1 ≠ p.1) →
    params.foldl
        (fun acc p => if keepParam p.2 then setParam p.1 p.2.toStr acc
          else acc) acc =
      acc ++ (params.filter fun p => keepParam p.2).map
        (fun p => (p.1, p.2.toStr)) := by
  induction params with
  | nil => intro acc _ _; simp
  | cons p t ih =>
    intro acc hnd hdisj
    rw [List.map_cons, List.nodup_cons] at hnd
    obtain ⟨hne, hnd'⟩ := hnd
    rw [List.foldl_cons, List.filter_cons]
    by_cases hk : keepParam p.2
    · rw [if_pos hk, if_pos hk,
        setParam_append p.1 p.2.toStr acc
          (fun q hq => hdisj p (List.mem_cons_self _ _) q hq)]
      rw [ih (acc ++ [(p.1, p.2.toStr)]) hnd' ?_]
      · simp
      · intro p' hp' q hq
        rcases List.mem_append.mp hq with hq | hq
        · exact hdisj p' (List.mem_cons_of_mem _ hp') q hq
        · have hq1 : q = (p.1, p.2.toStr) := by simpa using hq
          rw [hq1]
          intro hcontra
          exact hne (by
            rw [hcontra]
            exact List.mem_map.mpr ⟨p', hp', rfl⟩)
    · rw [if_neg hk, if_neg hk]
      exact ih acc hnd'
        (fun p' hp' q hq => hdisj p' (List.mem_cons_of_mem _ hp') q hq)

/-- C10: the stream request URL carries exactly the parameters whose value is
neither `undefined`, `null` nor the empty string — boolean `false` and
numeric `0` are transmitted (as `false` and `0`), empty strings are omitted. -/
theorem stream_query_params (params : List (List Char × JsVal))
    (hnd : (params.map Prod.fst).Nodup) :
    buildQuery params =
      (params.filter fun p => keepParam p.2).map
        (fun p => (p.1, p.2.toStr)) ∧
    (∀ k : List Char,
      (∃ w, (k, w) ∈ buildQuery params) ↔
      (∃ v, (k, v) ∈ params ∧ keepParam v = true)) ∧
    (∀ v, keepParam v = true ↔ v ≠ .undef ∧ v ≠ .null ∧ v ≠ .str []) ∧
    keepParam (.bool false) = true ∧ (JsVal.bool false).toStr = "false".data ∧
    keepParam (.num 0) = true ∧ (JsVal.num 0).toStr = "0".data := by
  have h1 : buildQuery params =
      (params.filter fun p => keepParam p.2).map
        (fun p => (p.1, p.2.toStr)) := by
    have := buildQuery_foldl params [] hnd (by simp)
    simpa [buildQuery] using this
  refine ⟨h1, fun k => ?_, fun v => ?_, rfl, rfl, rfl, rfl⟩
  · rw [h1]
    constructor
    · rintro ⟨w, hw⟩
      rcases List.mem_map.mp hw with ⟨p, hp, hpe⟩
      rcases List.mem_filter.mp hp with ⟨hpm, hpk⟩
      refine ⟨p.2, ?_, hpk⟩
      have hk : k = p.1 := (Prod.mk.injEq _ _ _ _ ▸ hpe.symm).1
      rw [hk]
      simpa using hpm
    · rintro ⟨v, hv, hk⟩
      exact ⟨(JsVal.toStr v),
        List.mem_map.mpr ⟨(k, v), List.mem_filter.mpr ⟨hv, hk⟩, rfl⟩⟩
  · cases v with
    | undef => simp [keepParam]
    | null => simp [keepParam]
    | str s =>
      simp only [keepParam, Bool.not_eq_true', ne_eq]
      constructor
      · intro h
        refine ⟨by simp, by simp, ?_⟩
        intro hc
        rw [show s = [] from by simpa using hc] at h
        simp at h
      · rintro ⟨-, -, hc⟩
        rcases hs : s.isEmpty with _ | _
        · simp
        · exact absurd (by simpa using List.isEmpty_iff.mp hs) hc

    | num n => simp [keepParam]
    | bool b => simp [keepParam]

/-- C10 witness: of five parameters, `x`, boolean `false` and numeric `0` are
transmitted while the empty string and `null` are dropped. -/
theorem stream_query_params_witness :
    buildQuery sampleParams =
      [("a".data, "x".data), ("c".data, "false".data), ("d".data, "0".data)] := by
  have h := (stream_query_params sampleParams (by decide)).1
  rw [h]
  decide

/-! ## Renderer output soundness (claim C9)

`Tags` lists every literal HTML tag the replace chain can emit. `TagSound s`
says `s` is a concatenation of angle-bracket-free characters and whole tags
from that list: in such a string every raw `<` or `>` belongs to a
renderer-emitted tag. The input is escaped before the chain runs, so its
angle brackets never reach the output raw. -/

/-- Every HTML tag literal the renderer's replacements insert. -/
def Tags : List (List Char) :=
  ["<h1>".data, "</h1>".data, "<h2>".data, "</h2>".data, "<h3>".data,
   "</h3>".data, "<strong>".data, "</strong>".data, "<em>".data, "</em>".data,
   "<code>".data, "</code>".data, "<hr>".data, "<blockquote>".data,
   "</blockquote>".data, "<li>".data, "</li>".data, "<pre>".data,
   "</pre>".data, "<p>".data, "</p>".data, "<table>".data, "</table>".data,
   "<thead>".data, "</thead>".data, "<tbody>".data, "</tbody>".data,
   "<tr>".data, "</tr>".data, "<th>".data, "</th>".data, "<td>".data,
   "</td>".data, "<ul>".data, "</ul>".data]

/-- A string made of angle-free characters and whole renderer tags. -/
inductive TagSound : List Char → Prop
  | nil : TagSound []
  | chr (c : Char) (s : List Char) : c ≠ '<' → c ≠ '>' → TagSound s →
      TagSound (c :: s)
  | tag (t s : List Char) : t ∈ Tags → TagSound s → TagSound (t ++ s)

/-- Every tag starts with `<`. -/
theorem tags_head : ∀ t ∈ Tags, t.take 1 = ['<'] := by decide

/-- No tag is empty. -/
theorem tags_ne_nil : ∀ t ∈ Tags, t ≠ [] := by decide

/-- `<` appears only as a tag's first character. -/
theorem tags_interior : ∀ t ∈ Tags, ∀ c ∈ t.drop 1, c ≠ '<' := by decide

/-- Tag concatenations stay sound. -/
theorem TagSound.append {a b : List Char} (ha : TagSound a)
    (hb : TagSound b) : TagSound (a ++ b) := by
  induction ha with
  | nil => exact hb
  | chr c s h1 h2 _ ih => exact TagSound.chr c _ h1 h2 ih
  | tag t s ht _ ih =>
    rw [List.append_assoc]
    exact TagSound.tag t _ ht ih

/-- Inversion: behind a non-`<` head character the rest stays sound. -/
theorem TagSound.inv : ∀ {q : List Char}, TagSound q →
    ∀ (c : Char) (s : List Char), q = c :: s → c ≠ '<' → TagSound s := by
  intro q hq
  induction hq with
  | nil =>
    intro c s h _
    exact absurd h (by simp)
  | chr c₀ s₀ h1 h2 hs₀ ih =>
    intro c s h _
    have hss : s₀ = s := (List.cons.injEq _ _ _ _ ▸ h).2
    exact hss ▸ hs₀
  | tag t s₀ ht hs₀ ih =>
    intro c s h hc
    exfalso
    cases t with
    | nil => exact tags_ne_nil _ ht rfl
    | cons c₀ t' =>
      have h0 : c₀ = '<' := by
        have := tags_head _ ht
        simpa using this
      rw [List.cons_append] at h
      have hcc : c₀ = c := (List.cons.injEq _ _ _ _ ▸ h).1
      exact hc (by rw [← hcc, h0])

/-- Peeling one non-`<` character. -/
theorem TagSound.cons_inv {c : Char} {s : List Char}
    (h : TagSound (c :: s)) (hc : c ≠ '<') : TagSound s :=
  TagSound.inv h c s rfl hc

/-- Peeling a run of non-`<` characters preserves soundness. -/
theorem TagSound.drop_prefix {u s : List Char} (h : TagSound (u ++ s))
    (hu : ∀ c ∈ u, c ≠ '<') : TagSound s := by
  induction u with
  | nil => exact h
  | cons c u' ih =>
    rw [List.cons_append] at h
    exact ih (h.cons_inv (hu c (List.mem_cons_self _ _)))
      fun d hd => hu d (List.mem_cons_of_mem _ hd)

/-- Prepending angle-free characters preserves soundness. -/
theorem TagSound.cons_safe {u s : List Char} (h : TagSound s)
    (hu : ∀ c ∈ u, c ≠ '<' ∧ c ≠ '>') : TagSound (u ++ s) := by
  induction u with
  | nil => exact h
  | cons c u' ih =>
    exact TagSound.chr c _ (hu c (List.mem_cons_self _ _)).1
      (hu c (List.mem_cons_self _ _)).2
      (ih fun d hd => hu d (List.mem_cons_of_mem _ hd))

/-- A character occurring in no tag is also never an angle bracket. -/
theorem safe_not_angle {c : Char} (hc : ∀ t ∈ Tags, c ∉ t) :
    c ≠ '<' ∧ c ≠ '>' := by
  constructor
  · intro h
    exact hc "<p>".data (by decide) (by rw [h]; decide)
  · intro h
    exact hc "<p>".data (by decide) (by rw [h]; decide)

/-- Splitting a sound string at a character that occurs in no tag yields two
sound halves. -/
theorem TagSound.split : ∀ {s : List Char}, TagSound s →
    ∀ (x y : List Char) (c : Char), s = x ++ c :: y →
    (∀ t ∈ Tags, c ∉ t) → TagSound x ∧ TagSound y := by
  intro s hs
  induction hs with
  | nil =>
    intro x y c heq _
    exact absurd heq.symm (by simp)
  | chr c₀ s₀ h1 h2 hs₀ ih =>
    intro x y c heq hc
    cases x with
    | nil =>
      simp only [List.nil_append] at heq
      have hcc : c = c₀ := ((List.cons.injEq _ _ _ _ ▸ heq).1).symm
      have hyy : s₀ = y := (List.cons.injEq _ _ _ _ ▸ heq).2
      exact ⟨TagSound.nil, hyy ▸ hs₀⟩
    | cons d x' =>
      rw [List.cons_append] at heq
      have hd : d = c₀ := ((List.cons.injEq _ _ _ _ ▸ heq).1).symm
      have hs' : s₀ = x' ++ c :: y := (List.cons.injEq _ _ _ _ ▸ heq).2
      obtain ⟨hx', hy⟩ := ih x' y c hs' hc
      exact ⟨hd ▸ TagSound.chr d _ (hd ▸ h1) (hd ▸ h2) hx', hy⟩
  | tag t s₀ ht hs₀ ih =>
    intro x y c heq hc
    by_cases hlen : x.length < t.length
    · exfalso
      have hpre1 : (x ++ [c]) <+: (t ++ s₀) := by
        rw [heq]
        exact ⟨y, by simp⟩
      have hpre2 : t <+: (t ++ s₀) := List.prefix_append _ _
      have hle : (x ++ [c]).length ≤ t.length := by
        simp only [List.length_append, List.length_cons]
        simp
        omega
      have hxc : (x ++ [c]) <+: t :=
        List.prefix_of_prefix_length_le hpre1 hpre2 hle
      obtain ⟨r, hr⟩ := hxc
      have : c ∈ t := by
        rw [← hr]
        simp
      exact hc t ht this
    · push_neg at hlen
      have hpre : t <+: x := by
        have h1 : t <+: (x ++ c :: y) := heq ▸ List.prefix_append t s₀
        have h2 : x <+: (x ++ c :: y) := List.prefix_append x (c :: y)
        exact List.prefix_of_prefix_length_le h1 h2 hlen
      obtain ⟨x', hx'⟩ := hpre
      have hs' : s₀ = x' ++ c :: y := by
        have : t ++ s₀ = t ++ (x' ++ c :: y) := by
          rw [heq, ← hx']
          simp
        exact List.append_cancel_left this
      obtain ⟨hx'', hy⟩ := ih x' y c hs' hc
      exact ⟨hx' ▸ TagSound.tag t x' ht hx'', hy⟩

/-- A lone tag is sound. -/
theorem TagSound.of_tag {t : List Char} (h : t ∈ Tags) : TagSound t := by
  have := TagSound.tag t [] h TagSound.nil
  simpa using this

/-- Wrapping a sound string in an open/close tag pair. -/
theorem TagSound.wrap {o c l : List Char} (ho : o ∈ Tags) (hc : c ∈ Tags)
    (hl : TagSound l) : TagSound (o ++ l ++ c) := by
  have h1 : TagSound (l ++ c) := hl.append (TagSound.of_tag hc)
  have h2 := TagSound.tag o (l ++ c) ho h1
  simpa [List.append_assoc] using h2

/-- No renderer tag contains whitespace. -/
theorem tags_no_ws : ∀ t ∈ Tags, ∀ c ∈ t, isJsWs c = false := by decide

/-- Characters occurring in no tag, collected once. -/
theorem ws_not_in_tags {c : Char} (h : isJsWs c = true) :
    ∀ t ∈ Tags, c ∉ t := by
  intro t ht hc
  rw [tags_no_ws t ht c hc] at h
  exact absurd h (by simp)

/-- `*` occurs in no tag. -/
theorem star_not_in_tags : ∀ t ∈ Tags, '*' ∉ t := by decide

/-- A backtick occurs in no tag. -/
theorem tick_not_in_tags : ∀ t ∈ Tags, '`' ∉ t := by decide

/-- `|` occurs in no tag. -/
theorem pipe_not_in_tags : ∀ t ∈ Tags, '|' ∉ t := by decide

/-- A newline occurs in no tag. -/
theorem nl_not_in_tags : ∀ t ∈ Tags, '\n' ∉ t := by decide

/-- Whitespace is not an angle bracket. -/
theorem isJsWs_ne_lt {c : Char} (h : isJsWs c = true) : c ≠ '<' := by
  intro hc
  rw [hc] at h
  exact absurd h (by decide)

/-- Digits are not angle brackets. -/
theorem isDigit_ne_lt {c : Char} (h : isDigit c = true) : c ≠ '<' := by
  intro hc
  rw [hc] at h
  exact absurd h (by decide)

/-- Word characters are not angle brackets. -/
theorem isWordChar_ne_lt {c : Char} (h : isWordChar c = true) : c ≠ '<' := by
  intro hc
  rw [hc] at h
  exact absurd h (by decide)

/-- The two halves of the right-trim decomposition. -/
theorem rdrop_append_rtake (p : Char → Bool) (l : List Char) :
    l.rdropWhile p ++ l.rtakeWhile p = l := by
  rw [List.rdropWhile, List.rtakeWhile, ← List.reverse_append,
    List.takeWhile_append_dropWhile, List.reverse_reverse]

/-- Trimming preserves soundness. -/
theorem jsTrim_sound {l : List Char} (hl : TagSound l) :
    TagSound (jsTrim l) := by
  unfold jsTrim
  have hdec := List.takeWhile_append_dropWhile isJsWs l
  have h1 : TagSound (l.dropWhile isJsWs) := by
    refine TagSound.drop_prefix (u := l.takeWhile isJsWs) ?_ ?_
    · rw [hdec]
      exact hl
    · intro c hc
      exact isJsWs_ne_lt (List.mem_takeWhile_imp hc)
  have hdec2 := rdrop_append_rtake isJsWs (l.dropWhile isJsWs)
  rcases hrt : (l.dropWhile isJsWs).rtakeWhile isJsWs with _ | ⟨c, rest⟩
  · rw [hrt, List.append_nil] at hdec2
    rw [hdec2]
    exact h1
  · have hsplit : l.dropWhile isJsWs =
        (l.dropWhile isJsWs).rdropWhile isJsWs ++ c :: rest := by
      conv_lhs => rw [← hdec2]
      rw [hrt]
    have hcw : isJsWs c = true :=
      List.mem_rtakeWhile_imp (by rw [hrt]; exact List.mem_cons_self _ _)
    exact (TagSound.split h1 _ _ c hsplit (ws_not_in_tags hcw)).1

/-- `splitCh` always yields at least one piece. -/
theorem splitCh_ne_nil (sep : Char) (s : List Char) : splitCh sep s ≠ [] := by
  induction s with
  | nil => simp [splitCh]
  | cons c rest ih =>
    rw [splitCh]
    split
    · simp
    · rcases h : splitCh sep rest with _ | ⟨l, ls⟩
      · exact absurd h ih
      · simp

/-- Prepending separator-free characters extends the first piece. -/
theorem splitCh_append_safe (sep : Char) :
    ∀ (u s : List Char), sep ∉ u →
    ∃ l₀ ls, splitCh sep s = l₀ :: ls ∧
      splitCh sep (u ++ s) = (u ++ l₀) :: ls := by
  intro u
  induction u with
  | nil =>
    intro s _
    rcases h : splitCh sep s with _ | ⟨l₀, ls⟩
    · exact absurd h (splitCh_ne_nil sep s)
    · exact ⟨l₀, ls, rfl, by simpa using h⟩
  | cons c u' ih =>
    intro s hu
    have hc : c ≠ sep := fun h => hu (h ▸ List.mem_cons_self _ _)
    obtain ⟨l₀, ls, h1, h2⟩ := ih s fun h => hu (List.mem_cons_of_mem _ h)
    refine ⟨l₀, ls, h1, ?_⟩
    rw [List.cons_append, splitCh, if_neg hc, h2]
    rfl

/-- Every piece of a separator split of a sound string is sound, provided the
separator occurs in no tag. -/
theorem splitCh_sound {sep : Char} (hsep : ∀ t ∈ Tags, sep ∉ t) :
    ∀ {s : List Char}, TagSound s → ∀ l ∈ splitCh sep s, TagSound l := by
  intro s hs
  induction hs with
  | nil =>
    intro l hl
    rw [show splitCh sep [] = [[]] from rfl] at hl
    rw [show l = [] by simpa using hl]
    exact TagSound.nil
  | chr c s₀ h1 h2 hs₀ ih =>
    intro l hl
    rw [splitCh] at hl
    by_cases hc : c = sep
    · rw [if_pos hc] at hl
      rcases List.mem_cons.mp hl with h | h
      · rw [h]; exact TagSound.nil
      · exact ih l h
    · rw [if_neg hc] at hl
      rcases hsp : splitCh sep s₀ with _ | ⟨l₀, ls⟩
      · exact absurd hsp (splitCh_ne_nil sep s₀)
      · rw [hsp] at hl
        rcases List.mem_cons.mp hl with h | h
        · rw [h]
          exact TagSound.chr c l₀ h1 h2 (ih l₀ (by rw [hsp]; simp))
        · exact ih l (by rw [hsp]; exact List.mem_cons_of_mem _ h)
  | tag t s₀ ht hs₀ ih =>
    intro l hl
    obtain ⟨l₀, ls, h1, h2⟩ :=
      splitCh_append_safe sep t s₀ (fun h => hsep t ht h)
    rw [h2] at hl
    rcases List.mem_cons.mp hl with h | h
    · rw [h]
      exact TagSound.tag t l₀ ht (ih l₀ (by rw [h1]; simp))
    · exact ih l (by rw [h1]; exact List.mem_cons_of_mem _ h)

/-- Joining sound pieces with newlines is sound. -/
theorem joinNl_sound : ∀ {ls : List (List Char)},
    (∀ l ∈ ls, TagSound l) → TagSound (joinNl ls) := by
  intro ls
  induction ls with
  | nil =>
    intro _
    exact TagSound.nil
  | cons l ls' ih =>
    intro h
    cases ls' with
    | nil => simpa [joinNl] using h l (List.mem_cons_self _ _)
    | cons l₂ ls'' =>
      rw [show joinNl (l :: l₂ :: ls'') = l ++ '\n' :: joinNl (l₂ :: ls'')
        from rfl]
      refine (h l (List.mem_cons_self _ _)).append ?_
      refine TagSound.chr '\n' _ (by decide) (by decide) ?_
      exact ih fun x hx => h x (List.mem_cons_of_mem _ hx)

/-- A per-line stage with a sound line transform is sound. -/
theorem mapLines_sound {f : List Char → List Char}
    (hf : ∀ l, TagSound l → TagSound (f l)) {s : List Char}
    (hs : TagSound s) : TagSound (mapLines f s) := by
  refine joinNl_sound ?_
  intro l hl
  rcases List.mem_map.mp hl with ⟨l₀, hl₀, hfl⟩
  exact hfl ▸ hf l₀ (splitCh_sound nl_not_in_tags hs l₀ hl₀)

/-- Dropping a `<`-free prefix preserves soundness. -/
theorem TagSound.peel_prefix {pre l : List Char} (hl : TagSound l)
    (hp : pre <+: l) (hpre : ∀ c ∈ pre, c ≠ '<') :
    TagSound (l.drop pre.length) := by
  obtain ⟨t, ht⟩ := hp
  have hdrop : l.drop pre.length = t := by
    rw [← ht]
    exact List.drop_left _ _
  rw [hdrop]
  exact TagSound.drop_prefix (ht ▸ hl) hpre

/-- `isPrefixOf` form of `TagSound.peel_prefix`. -/
theorem TagSound.peel_isPrefix {pre l : List Char} (hl : TagSound l)
    (hp : pre.isPrefixOf l = true) (hpre : ∀ c ∈ pre, c ≠ '<') :
    TagSound (l.drop pre.length) :=
  hl.peel_prefix (List.isPrefixOf_iff_prefix.mp hp) hpre

/-- The header stages preserve soundness. -/
theorem h3Line_sound (l : List Char) (hl : TagSound l) :
    TagSound (h3Line l) := by
  unfold h3Line
  split
  · next hcond =>
    exact TagSound.wrap (by decide) (by decide)
      (hl.peel_isPrefix hcond.1 (by decide))
  · exact hl

/-- See `h3Line_sound`. -/
theorem h2Line_sound (l : List Char) (hl : TagSound l) :
    TagSound (h2Line l) := by
  unfold h2Line
  split
  · next hcond =>
    exact TagSound.wrap (by decide) (by decide)
      (hl.peel_isPrefix hcond.1 (by decide))
  · exact hl

/-- See `h3Line_sound`. -/
theorem h1Line_sound (l : List Char) (hl : TagSound l) :
    TagSound (h1Line l) := by
  unfold h1Line
  split
  · next hcond =>
    exact TagSound.wrap (by decide) (by decide)
      (hl.peel_isPrefix hcond.1 (by decide))
  · exact hl

/-- The horizontal-rule stage preserves soundness. -/
theorem hrLine_sound (l : List Char) (hl : TagSound l) :
    TagSound (hrLine l) := by
  unfold hrLine
  split
  · exact TagSound.of_tag (by decide)
  · exact hl

/-- The blockquote stage preserves soundness. -/
theorem bqLine_sound (l : List Char) (hl : TagSound l) :
    TagSound (bqLine l) := by
  unfold bqLine
  split
  · next hcond =>
    exact TagSound.wrap (by decide) (by decide)
      (hl.peel_isPrefix hcond.1 (by decide))
  · exact hl

/-- The ordered-list stage preserves soundness. -/
theorem olLine_sound (l : List Char) (hl : TagSound l) :
    TagSound (olLine l) := by
  unfold olLine
  simp only []
  split
  · next hcond =>
    have h₁ : TagSound (l.drop (l.takeWhile isDigit).length) :=
      hl.peel_prefix (List.takeWhile_prefix _)
        fun c hc => isDigit_ne_lt (List.mem_takeWhile_imp hc)
    have h₂ : TagSound ((l.drop (l.takeWhile isDigit).length).drop 2) :=
      h₁.peel_isPrefix hcond.2.1 (by decide)
    have heq : (l.drop (l.takeWhile isDigit).length).drop 2 =
        l.drop ((l.takeWhile isDigit).length + 2) := by
      rw [List.drop_drop]
    exact TagSound.wrap (by decide) (by decide) (heq ▸ h₂)
  · exact hl

/-- The paragraph stage preserves soundness. -/
theorem paraLine_sound (l : List Char) (hl : TagSound l) :
    TagSound (paraLine l) := by
  unfold paraLine
  split
  · exact hl
  · split
    · exact hl
    · exact TagSound.wrap (by decide) (by decide) hl

/-! ### Soundness of the global scans -/

/-- When the matcher fails at every suffix of `u`, the scan copies `u`. -/
theorem scanRepl_skip (m : List Char → Option (List Char × Nat)) :
    ∀ (u s' : List Char),
    (∀ v, v ≠ [] → v <:+ u → m (v ++ s') = none) →
    scanRepl m (u ++ s') = u ++ scanRepl m s' := by
  intro u
  induction u with
  | nil =>
    intro s' _
    simp
  | cons c u' ih =>
    intro s' h
    have h0 : m (c :: (u' ++ s')) = none := by
      have := h (c :: u') (by simp) (List.suffix_refl _)
      rwa [List.cons_append] at this
    rw [List.cons_append]
    rw [scanRepl, h0]
    rw [ih s' fun v hv hsuf => h v hv (hsuf.trans (List.suffix_cons c u'))]
    rfl

/-- Master soundness for an unanchored scan whose matcher only fires on a
trigger character foreign to every tag. -/
theorem scanRepl_sound_aux (m : List Char → Option (List Char × Nat))
    (trig : Char → Bool)
    (h1 : ∀ (c : Char) (s : List Char), m (c :: s) ≠ none → trig c = true)
    (h2 : ∀ t ∈ Tags, ∀ c ∈ t, trig c = false)
    (h3 : ∀ s, TagSound s → ∀ out n, m s = some (out, n) →
      TagSound out ∧ TagSound (s.drop (max 1 n))) :
    ∀ (fuel : Nat) (s : List Char), s.length ≤ fuel → TagSound s →
      TagSound (scanRepl m s) := by
  intro fuel
  induction fuel with
  | zero =>
    intro s hle hs
    have hnil : s = [] := List.length_eq_zero.mp (Nat.le_zero.mp hle)
    subst hnil
    rw [scanRepl]
    exact TagSound.nil
  | succ n ih =>
    intro s hle hs
    cases hs with
    | nil =>
      rw [scanRepl]
      exact TagSound.nil
    | chr c s₀ hc1 hc2 hs₀ =>
      rcases hm : m (c :: s₀) with _ | ⟨out, k⟩
      · rw [scanRepl, hm]
        refine TagSound.chr _ _ hc1 hc2 (ih s₀ ?_ hs₀)
        simp only [List.length_cons] at hle
        omega
      · obtain ⟨hout, hdrop⟩ :=
          h3 (c :: s₀) (TagSound.chr c s₀ hc1 hc2 hs₀) out k hm
        rw [scanRepl, hm]
        refine hout.append (ih _ ?_ hdrop)
        have h1k : 1 ≤ max 1 k := le_max_left _ _
        simp only [List.length_drop, List.length_cons] at *
        omega
    | tag t s₀ ht hs₀ =>
      have hskip : scanRepl m (t ++ s₀) = t ++ scanRepl m s₀ := by
        apply scanRepl_skip
        intro v hv hsuf
        rcases v with _ | ⟨c, v'⟩
        · exact absurd rfl hv
        · have hcmem : c ∈ t := hsuf.sublist.subset (List.mem_cons_self c v')
          have hres : m (c :: (v' ++ s₀)) = none := by
            by_contra hne
            have := h1 c (v' ++ s₀) hne
            rw [h2 t ht c hcmem] at this
            exact absurd this (by simp)
          rw [List.cons_append]
          exact hres
      rw [hskip]
      refine TagSound.tag t _ ht (ih s₀ ?_ hs₀)
      have hpos : 1 ≤ t.length := List.length_pos.mpr (tags_ne_nil t ht)
      rw [List.length_append] at hle
      omega

/-- `scanRepl_sound_aux` at full fuel. -/
theorem scanRepl_sound (m : List Char → Option (List Char × Nat))
    (trig : Char → Bool)
    (h1 : ∀ (c : Char) (s : List Char), m (c :: s) ≠ none → trig c = true)
    (h2 : ∀ t ∈ Tags, ∀ c ∈ t, trig c = false)
    (h3 : ∀ s, TagSound s → ∀ out n, m s = some (out, n) →
      TagSound out ∧ TagSound (s.drop (max 1 n)))
    (s : List Char) (hs : TagSound s) : TagSound (scanRepl m s) :=
  scanRepl_sound_aux m trig h1 h2 h3 s.length s (Nat.le_refl _) hs

/-- A failed match lets the line-start scan copy one character whatever the
flag. -/
theorem scanReplLS_cons_none {m : List Char → Option (List Char × Nat)}
    {c : Char} {rest : List Char} (hm : m (c :: rest) = none) (b : Bool) :
    scanReplLS m b (c :: rest) =
      c :: scanReplLS m (decide (c = '\n')) rest := by
  cases b <;> simp [scanReplLS, hm]

/-- `scanReplLS` version of `scanRepl_skip` (for newline-free `u`). -/
theorem scanReplLS_skip (m : List Char → Option (List Char × Nat)) :
    ∀ (u : List Char), u ≠ [] → ∀ (s' : List Char) (b : Bool),
    (∀ v, v ≠ [] → v <:+ u → m (v ++ s') = none) → '\n' ∉ u →
    scanReplLS m b (u ++ s') = u ++ scanReplLS m false s' := by
  intro u
  induction u with
  | nil =>
    intro h
    exact absurd rfl h
  | cons c u' ih =>
    intro _ s' b hnone hnl
    have h0 : m (c :: (u' ++ s')) = none := by
      have := hnone (c :: u') (by simp) (List.suffix_refl _)
      rwa [List.cons_append] at this
    have hcnl : (decide (c = '\n')) = false := by
      simp only [decide_eq_false_iff_not]
      intro h
      exact hnl (h ▸ List.mem_cons_self _ _)
    rw [List.cons_append]
    cases u' with
    | nil =>
      rw [List.nil_append] at h0
      rw [List.nil_append, scanReplLS_cons_none h0 b, hcnl]
      rfl
    | cons d u'' =>
      rw [scanReplLS_cons_none h0 b, hcnl]
      rw [ih (by simp) s' false
        (fun v hv hsuf => hnone v hv (hsuf.trans (List.suffix_cons c _)))
        (fun h => hnl (List.mem_cons_of_mem _ h))]
      rfl

/-- Master soundness for the line-start-anchored scan. -/
theorem scanReplLS_sound_aux (m : List Char → Option (List Char × Nat))
    (trig : Char → Bool)
    (h1 : ∀ (c : Char) (s : List Char), m (c :: s) ≠ none → trig c = true)
    (h2 : ∀ t ∈ Tags, ∀ c ∈ t, trig c = false)
    (h3 : ∀ s, TagSound s → ∀ out n, m s = some (out, n) →
      TagSound out ∧ TagSound (s.drop (max 1 n))) :
    ∀ (fuel : Nat) (s : List Char) (b : Bool), s.length ≤ fuel → TagSound s →
      TagSound (scanReplLS m b s) := by
  intro fuel
  induction fuel with
  | zero =>
    intro s b hle hs
    have hnil : s = [] := List.length_eq_zero.mp (Nat.le_zero.mp hle)
    subst hnil
    rw [scanReplLS]
    exact TagSound.nil
  | succ n ih =>
    intro s b hle hs
    cases hs with
    | nil =>
      rw [scanReplLS]
      exact TagSound.nil
    | chr c s₀ hc1 hc2 hs₀ =>
      have hcopy : ∀ b' : Bool, m (c :: s₀) = none →
          TagSound (scanReplLS m b' (c :: s₀)) := by
        intro b' hm
        rw [scanReplLS_cons_none hm b']
        refine TagSound.chr _ _ hc1 hc2 (ih s₀ _ ?_ hs₀)
        simp only [List.length_cons] at hle
        omega
      cases b with
      | false =>
        have hmb : (if false then m (c :: s₀) else none) = none := rfl
        rw [scanReplLS, hmb]
        refine TagSound.chr _ _ hc1 hc2 (ih s₀ _ ?_ hs₀)
        simp only [List.length_cons] at hle
        omega
      | true =>
        rcases hm : m (c :: s₀) with _ | ⟨out, k⟩
        · exact hcopy true hm
        · obtain ⟨hout, hdrop⟩ :=
            h3 (c :: s₀) (TagSound.chr c s₀ hc1 hc2 hs₀) out k hm
          have hmb : (if true then m (c :: s₀) else none) = some (out, k) :=
            hm
          rw [scanReplLS, hmb]
          refine hout.append (ih _ false ?_ hdrop)
          have h1k : 1 ≤ max 1 k := le_max_left _ _
          simp only [List.length_drop, List.length_cons] at *
          omega
    | tag t s₀ ht hs₀ =>
      have hskip : scanReplLS m b (t ++ s₀) =
          t ++ scanReplLS m false s₀ := by
        apply scanReplLS_skip m t (tags_ne_nil t ht) s₀ b
        · intro v hv hsuf
          rcases v with _ | ⟨c, v'⟩
          · exact absurd rfl hv
          · have hcmem : c ∈ t :=
              hsuf.sublist.subset (List.mem_cons_self c v')
            have hres : m (c :: (v' ++ s₀)) = none := by
              by_contra hne
              have := h1 c (v' ++ s₀) hne
              rw [h2 t ht c hcmem] at this
              exact absurd this (by simp)
            rw [List.cons_append]
            exact hres
        · intro h
          exact nl_not_in_tags t ht h
      rw [hskip]
      refine TagSound.tag t _ ht (ih s₀ false ?_ hs₀)
      have hpos : 1 ≤ t.length := List.length_pos.mpr (tags_ne_nil t ht)
      rw [List.length_append] at hle
      omega

/-- `scanReplLS_sound_aux` at full fuel. -/
theorem scanReplLS_sound (m : List Char → Option (List Char × Nat))
    (trig : Char → Bool)
    (h1 : ∀ (c : Char) (s : List Char), m (c :: s) ≠ none → trig c = true)
    (h2 : ∀ t ∈ Tags, ∀ c ∈ t, trig c = false)
    (h3 : ∀ s, TagSound s → ∀ out n, m s = some (out, n) →
      TagSound out ∧ TagSound (s.drop (max 1 n)))
    (s : List Char) (b : Bool) (hs : TagSound s) :
    TagSound (scanReplLS m b s) :=
  scanReplLS_sound_aux m trig h1 h2 h3 s.length s b (Nat.le_refl _) hs

/-! ### Soundness of the emphasis and inline-code matchers -/

/-- The head a nonempty prefix forces. -/
theorem isPrefixOf_cons_head {d : Char} {pre : List Char} {c : Char}
    {s : List Char} (h : (d :: pre).isPrefixOf (c :: s) = true) : c = d := by
  obtain ⟨t, ht⟩ := List.isPrefixOf_iff_prefix.mp h
  rw [List.cons_append] at ht
  exact ((List.cons.injEq _ _ _ _ ▸ ht).1).symm

/-- What a successful `bfind` says about its input. -/
theorem bfind_split : ∀ (r p : List Char) (k : Nat), bfind r = some (p, k) →
    r = p ++ '*' :: '*' :: r.drop k ∧ k = p.length + 2 ∧ p ≠ [] := by
  intro r
  induction r with
  | nil =>
    intro p k h
    simp [bfind] at h
  | cons c rest ih =>
    intro p k h
    rw [bfind] at h
    split at h
    · exact absurd h (by simp)
    · split at h
      · next hp =>
        obtain ⟨t, ht⟩ := List.isPrefixOf_iff_prefix.mp hp
        have h1 := Option.some.inj h
        have hpp : p = [c] := (Prod.mk.injEq _ _ _ _ ▸ h1).1.symm
        have hkk : k = 3 := (Prod.mk.injEq _ _ _ _ ▸ h1).2.symm
        have hrest : rest = '*' :: '*' :: t := by
          rw [← ht]
          rfl
        subst hpp hkk
        refine ⟨?_, rfl, by simp⟩
        rw [hrest]
        rfl
      · rcases hb : bfind rest with _ | ⟨p', k'⟩
        · rw [hb] at h
          exact absurd h (by simp)
        · rw [hb] at h
          simp only [Option.map_some'] at h
          have h1 := Option.some.inj h
          have hpp : p = c :: p' := (Prod.mk.injEq _ _ _ _ ▸ h1).1.symm
          have hkk : k = k' + 1 := (Prod.mk.injEq _ _ _ _ ▸ h1).2.symm
          obtain ⟨hr, hk, hne⟩ := ih p' k' hb
          subst hpp hkk
          refine ⟨?_, by simpa using hk, by simp⟩
          rw [List.drop_succ_cons]
          conv_lhs => rw [hr]
          rfl

/-- What a successful `ifind` says about its input. -/
theorem ifind_split : ∀ (r p : List Char) (k : Nat), ifind r = some (p, k) →
    r = p ++ '*' :: r.drop k ∧ k = p.length + 1 ∧ p ≠ [] := by
  intro r
  induction r with
  | nil =>
    intro p k h
    simp [ifind] at h
  | cons c rest ih =>
    intro p k h
    rw [ifind] at h
    split at h
    · exact absurd h (by simp)
    · split at h
      · next hp =>
        obtain ⟨t, ht⟩ := List.isPrefixOf_iff_prefix.mp hp
        have h1 := Option.some.inj h
        have hpp : p = [c] := (Prod.mk.injEq _ _ _ _ ▸ h1).1.symm
        have hkk : k = 2 := (Prod.mk.injEq _ _ _ _ ▸ h1).2.symm
        have hrest : rest = '*' :: t := by
          rw [← ht]
          rfl
        subst hpp hkk
        refine ⟨?_, rfl, by simp⟩
        rw [hrest]
        rfl
      · rcases hb : ifind rest with _ | ⟨p', k'⟩
        · rw [hb] at h
          exact absurd h (by simp)
        · rw [hb] at h
          simp only [Option.map_some'] at h
          have h1 := Option.some.inj h
          have hpp : p = c :: p' := (Prod.mk.injEq _ _ _ _ ▸ h1).1.symm
          have hkk : k = k' + 1 := (Prod.mk.injEq _ _ _ _ ▸ h1).2.symm
          obtain ⟨hr, hk, hne⟩ := ih p' k' hb
          subst hpp hkk
          refine ⟨?_, by simpa using hk, by simp⟩
          rw [List.drop_succ_cons]
          conv_lhs => rw [hr]
          rfl

/-- Match soundness for the bold matcher. -/
theorem boldM_sound : ∀ s, TagSound s → ∀ out n, boldM s = some (out, n) →
    TagSound out ∧ TagSound (s.drop (max 1 n)) := by
  intro s hs out n h
  rw [boldM] at h
  split at h
  · next hpre =>
    obtain ⟨t, ht⟩ := List.isPrefixOf_iff_prefix.mp hpre
    have hst : s = '*' :: '*' :: t := by
      rw [← ht]
      rfl
    have hdt : s.drop 2 = t := by
      rw [hst]
      rfl
    rcases hb : bfind (s.drop 2) with _ | ⟨p, k⟩
    · rw [hb] at h
      exact absurd h (by simp)
    · rw [hb] at h
      simp only [Option.map_some'] at h
      have h1 := Option.some.inj h
      have hout : out = "<strong>".data ++ p ++ "</strong>".data :=
        (Prod.mk.injEq _ _ _ _ ▸ h1).1.symm
      have hn : n = k + 2 := (Prod.mk.injEq _ _ _ _ ▸ h1).2.symm
      obtain ⟨hr, hk, hne⟩ := bfind_split _ p k hb
      have hs2 : TagSound ('*' :: '*' :: t) := hst ▸ hs
      have hts : TagSound t :=
        (hs2.cons_inv (by decide)).cons_inv (by decide)
      have hrt : t = p ++ '*' :: ('*' :: t.drop k) := by
        rw [hdt] at hr
        exact hr
      obtain ⟨hp, hy⟩ :=
        TagSound.split hts p ('*' :: t.drop k) '*' hrt star_not_in_tags
      have hdk : TagSound (t.drop k) := hy.cons_inv (by decide)
      subst hout hn
      constructor
      · exact TagSound.wrap (by decide) (by decide) hp
      · have hmax : max 1 (k + 2) = k + 2 := by omega
        rw [hmax, hst]
        rw [show ('*' :: '*' :: t).drop (k + 2) = t.drop k from by
          rw [show k + 2 = k + 1 + 1 from rfl, List.drop_succ_cons,
            List.drop_succ_cons]]
        exact hdk
  · exact absurd h (by simp)

/-- Match soundness for the italic matcher. -/
theorem italM_sound : ∀ s, TagSound s → ∀ out n, italM s = some (out, n) →
    TagSound out ∧ TagSound (s.drop (max 1 n)) := by
  intro s hs out n h
  rw [italM] at h
  split at h
  · next hpre =>
    obtain ⟨t, ht⟩ := List.isPrefixOf_iff_prefix.mp hpre
    have hst : s = '*' :: t := by
      rw [← ht]
      rfl
    have hdt : s.drop 1 = t := by
      rw [hst]
      rfl
    rcases hb : ifind (s.drop 1) with _ | ⟨p, k⟩
    · rw [hb] at h
      exact absurd h (by simp)
    · rw [hb] at h
      simp only [Option.map_some'] at h
      have h1 := Option.some.inj h
      have hout : out = "<em>".data ++ p ++ "</em>".data :=
        (Prod.mk.injEq _ _ _ _ ▸ h1).1.symm
      have hn : n = k + 1 := (Prod.mk.injEq _ _ _ _ ▸ h1).2.symm
      obtain ⟨hr, hk, hne⟩ := ifind_split _ p k hb
      have hs2 : TagSound ('*' :: t) := hst ▸ hs
      have hts : TagSound t := hs2.cons_inv (by decide)
      have hrt : t = p ++ '*' :: t.drop k := by
        rw [hdt] at hr
        exact hr
      obtain ⟨hp, hy⟩ :=
        TagSound.split hts p (t.drop k) '*' hrt star_not_in_tags
      subst hout hn
      constructor
      · exact TagSound.wrap (by decide) (by decide) hp
      · have hmax : max 1 (k + 1) = k + 1 := by omega
        rw [hmax, hst, List.drop_succ_cons]
        exact hy
  · exact absurd h (by simp)

/-- A list whose first element is known, from `take 1`. -/
theorem take_one_eq {l : List Char} {c : Char} (h : l.take 1 = [c]) :
    l = c :: l.drop 1 := by
  cases l with
  | nil => simp at h
  | cons a rest =>
    have : a = c := by simpa using h
    rw [this]
    rfl

/-- Match soundness for the inline-code matcher. -/
theorem codeM_sound : ∀ s, TagSound s → ∀ out n, codeM s = some (out, n) →
    TagSound out ∧ TagSound (s.drop (max 1 n)) := by
  intro s hs out n h
  rw [codeM] at h
  split at h
  · next hpre =>
    obtain ⟨t, ht⟩ := List.isPrefixOf_iff_prefix.mp hpre
    have hst : s = '`' :: t := by
      rw [← ht]
      rfl
    have hdt : s.drop 1 = t := by
      rw [hst]
      rfl
    rw [hdt] at h
    simp only [] at h
    split at h
    · exact absurd h (by simp)
    · split at h
      · next hcne hclose =>
        have h1 := Option.some.inj h
        have hout : out = "<code>".data ++ t.takeWhile (· ≠ '`') ++
            "</code>".data := (Prod.mk.injEq _ _ _ _ ▸ h1).1.symm
        have hn : n = (t.takeWhile (· ≠ '`')).length + 2 :=
          (Prod.mk.injEq _ _ _ _ ▸ h1).2.symm
        have hts : TagSound t := (hst ▸ hs : TagSound ('`' :: t)).cons_inv
          (by decide)
        set tw := t.takeWhile (· ≠ '`') with htw
        have hdrop1 : t.drop tw.length = '`' :: t.drop (tw.length + 1) := by
          have h2 := take_one_eq hclose
          rw [List.drop_drop] at h2
          exact h2
        have htake : t.take tw.length = tw := by
          obtain ⟨r, hr⟩ := List.takeWhile_prefix (l := t) (· ≠ '`')
          rw [← htw] at hr
          conv_lhs => rw [← hr]
          rw [List.take_left]
        have hsplit : t = tw ++ '`' :: t.drop (tw.length + 1) := by
          conv_lhs => rw [← List.take_append_drop tw.length t]
          rw [htake, hdrop1]
        obtain ⟨hcontent, hrest⟩ := TagSound.split hts _ _ '`' hsplit
          tick_not_in_tags
        subst hout hn
        constructor
        · exact TagSound.wrap (by decide) (by decide) hcontent
        · have hmax : max 1 ((t.takeWhile (· ≠ '`')).length + 2) =
              (t.takeWhile (· ≠ '`')).length + 2 := by omega
          rw [hmax, hst]
          rw [show ('`' :: t).drop (tw.length + 2) =
            t.drop (tw.length + 1) from by
            rw [show tw.length + 2 = tw.length + 1 + 1 from rfl,
              List.drop_succ_cons]]
          exact hrest
      · exact absurd h (by simp)
  · exact absurd h (by simp)

/-- What a successful `upToTriple` says about its input. -/
theorem upToTriple_split : ∀ (q p : List Char) (k : Nat),
    upToTriple q = some (p, k) →
    q = p ++ '`' :: '`' :: '`' :: q.drop k ∧ k = p.length + 3 := by
  intro q
  induction q with
  | nil =>
    intro p k h
    simp [upToTriple] at h
  | cons c rest ih =>
    intro p k h
    rw [upToTriple] at h
    split at h
    · next hp =>
      obtain ⟨t, ht⟩ := List.isPrefixOf_iff_prefix.mp hp
      have h1 := Option.some.inj h
      have hpp : p = [] := (Prod.mk.injEq _ _ _ _ ▸ h1).1.symm
      have hkk : k = 3 := (Prod.mk.injEq _ _ _ _ ▸ h1).2.symm
      have hq : c :: rest = '`' :: '`' :: '`' :: t := by
        rw [← ht]
        rfl
      subst hpp hkk
      refine ⟨?_, rfl⟩
      rw [hq]
      rfl
    · rcases hb : upToTriple rest with _ | ⟨p', k'⟩
      · rw [hb] at h
        exact absurd h (by simp)
      · rw [hb] at h
        simp only [Option.map_some'] at h
        have h1 := Option.some.inj h
        have hpp : p = c :: p' := (Prod.mk.injEq _ _ _ _ ▸ h1).1.symm
        have hkk : k = k' + 1 := (Prod.mk.injEq _ _ _ _ ▸ h1).2.symm
        obtain ⟨hr, hk⟩ := ih p' k' hb
        subst hpp hkk
        refine ⟨?_, by simpa using hk⟩
        rw [List.drop_succ_cons]
        conv_lhs => rw [hr]
        rfl

/-- Match soundness for the fenced-code matcher. -/
theorem fenceM_sound : ∀ s, TagSound s → ∀ out n, fenceM s = some (out, n) →
    TagSound out ∧ TagSound (s.drop (max 1 n)) := by
  intro s hs out n h
  rw [fenceM] at h
  split at h
  · next hpre =>
    obtain ⟨t, ht⟩ := List.isPrefixOf_iff_prefix.mp hpre
    have hst : s = '`' :: '`' :: '`' :: t := by
      rw [← ht]
      rfl
    have hdt : s.drop 3 = t := by
      rw [hst]
      rfl
    rw [hdt] at h
    simp only [] at h
    split at h
    · next hclose =>
      set lang := t.takeWhile isWordChar with hlang
      rcases hb : upToTriple (t.drop (lang.length + 1)) with _ | ⟨p, k⟩
      · rw [hb] at h
        exact absurd h (by simp)
      · rw [hb] at h
        simp only [Option.map_some'] at h
        have h1 := Option.some.inj h
        have hout : out = "<pre><code>".data ++ p ++ "</code></pre>".data :=
          (Prod.mk.injEq _ _ _ _ ▸ h1).1.symm
        have hn : n = 3 + lang.length + 1 + k :=
          (Prod.mk.injEq _ _ _ _ ▸ h1).2.symm
        have hts : TagSound t :=
          ((((hst ▸ hs : TagSound ('`' :: '`' :: '`' :: t)).cons_inv
            (by decide)).cons_inv (by decide)).cons_inv (by decide))
        have hdrop1 : t.drop lang.length =
            '\n' :: t.drop (lang.length + 1) := by
          have h2 := take_one_eq hclose
          rw [List.drop_drop] at h2
          exact h2
        have htake : t.take lang.length = lang := by
          obtain ⟨r, hr⟩ := List.takeWhile_prefix (l := t) isWordChar
          rw [← hlang] at hr
          conv_lhs => rw [← hr]
          rw [List.take_left]
        have hsplit : t = lang ++ '\n' :: t.drop (lang.length + 1) := by
          conv_lhs => rw [← List.take_append_drop lang.length t]
          rw [htake, hdrop1]
        obtain ⟨hlangS, hq⟩ := TagSound.split hts _ _ '\n' hsplit
          nl_not_in_tags
        obtain ⟨hqr, hk⟩ := upToTriple_split _ p k hb
        obtain ⟨hp, hy⟩ := TagSound.split hq _ _ '`' hqr tick_not_in_tags
        have hdk : TagSound ((t.drop (lang.length + 1)).drop k) :=
          (hy.cons_inv (by decide)).cons_inv (by decide)
        subst hout hn
        constructor
        · have hform : "<pre><code>".data ++ p ++ "</code></pre>".data =
              "<pre>".data ++ ("<code>".data ++ p ++ "</code>".data) ++
                "</pre>".data := by
            simp
          rw [hform]
          exact TagSound.wrap (by decide) (by decide)
            (TagSound.wrap (by decide) (by decide) hp)
        · have hmax : max 1 (3 + lang.length + 1 + k) =
              3 + lang.length + 1 + k := by omega
          rw [hmax, hst]
          rw [show 3 + lang.length + 1 + k = lang.length + 1 + k + 1 + 1 + 1
            from by omega]
          rw [List.drop_succ_cons, List.drop_succ_cons, List.drop_succ_cons]
          rw [show t.drop (lang.length + 1 + k) =
            (t.drop (lang.length + 1)).drop k from (List.drop_drop _ _ _).symm]
          exact hdk
    · exact absurd h (by simp)
  · exact absurd h (by simp)

/-- The bold stage preserves soundness. -/
theorem boldStage_sound {s : List Char} (hs : TagSound s) :
    TagSound (boldStage s) := by
  refine scanRepl_sound boldM (fun c => c = '*') ?_ ?_ boldM_sound s hs
  · intro c s' hne
    rw [boldM] at hne
    by_cases hp : "**".data.isPrefixOf (c :: s') = true
    · simpa using isPrefixOf_cons_head hp
    · rw [if_neg hp] at hne
      exact absurd rfl hne
  · intro t ht c hc
    simpa using fun h : c = '*' => star_not_in_tags t ht (h ▸ hc)

/-- The italic stage preserves soundness. -/
theorem italStage_sound {s : List Char} (hs : TagSound s) :
    TagSound (italStage s) := by
  refine scanRepl_sound italM (fun c => c = '*') ?_ ?_ italM_sound s hs
  · intro c s' hne
    rw [italM] at hne
    by_cases hp : "*".data.isPrefixOf (c :: s') = true
    · simpa using isPrefixOf_cons_head hp
    · rw [if_neg hp] at hne
      exact absurd rfl hne
  · intro t ht c hc
    simpa using fun h : c = '*' => star_not_in_tags t ht (h ▸ hc)

/-- The inline-code stage preserves soundness. -/
theorem codeStage_sound {s : List Char} (hs : TagSound s) :
    TagSound (codeStage s) := by
  refine scanRepl_sound codeM (fun c => c = '`') ?_ ?_ codeM_sound s hs
  · intro c s' hne
    rw [codeM] at hne
    by_cases hp : "`".data.isPrefixOf (c :: s') = true
    · simpa using isPrefixOf_cons_head hp
    · rw [if_neg hp] at hne
      exact absurd rfl hne
  · intro t ht c hc
    simpa using fun h : c = '`' => tick_not_in_tags t ht (h ▸ hc)

/-- The fenced-code stage preserves soundness. -/
theorem fenceStage_sound {s : List Char} (hs : TagSound s) :
    TagSound (fenceStage s) := by
  refine scanRepl_sound fenceM (fun c => c = '`') ?_ ?_ fenceM_sound s hs
  · intro c s' hne
    rw [fenceM] at hne
    by_cases hp : "```".data.isPrefixOf (c :: s') = true
    · simpa using isPrefixOf_cons_head hp
    · rw [if_neg hp] at hne
      exact absurd rfl hne
  · intro t ht c hc
    simpa using fun h : c = '`' => tick_not_in_tags t ht (h ▸ hc)

/-! ### Soundness of the unordered-list stage -/

/-- Dropping the matched run of `takeWhile` is `dropWhile`. -/
theorem drop_takeWhile_length (p : Char → Bool) (l : List Char) :
    l.drop (l.takeWhile p).length = l.dropWhile p := by
  induction l with
  | nil => rfl
  | cons c rest ih =>
    by_cases h : p c
    · simp [List.takeWhile_cons, List.dropWhile_cons, h, ih]
    · simp [List.takeWhile_cons, List.dropWhile_cons, h]

/-- The first character `dropWhile` keeps fails the predicate. -/
theorem dropWhile_head_not (p : Char → Bool) (l : List Char) :
    ∀ (d : Char) (rest : List Char), l.dropWhile p = d :: rest →
      p d = false := by
  induction l with
  | nil =>
    intro d rest h
    simp [List.dropWhile] at h
  | cons c r ih =>
    intro d rest h
    rw [List.dropWhile_cons] at h
    split at h
    · exact ih d rest h
    · next hp =>
      have hcd : c = d := (List.cons.injEq _ _ _ _ ▸ h).1
      rw [← hcd]
      simpa using hp

/-- The `take` of `takeWhile`'s length is `takeWhile` itself. -/
theorem take_takeWhile_length (p : Char → Bool) (l : List Char) :
    l.take (l.takeWhile p).length = l.takeWhile p :=
  (List.prefix_iff_eq_take.mp (List.takeWhile_prefix p)).symm

/-- Match soundness for the list-item matcher. -/
theorem ulM_sound : ∀ s, TagSound s → ∀ out n, ulM s = some (out, n) →
    TagSound out ∧ TagSound (s.drop (max 1 n)) := by
  intro s hs out n h
  rw [ulM] at h
  simp only [] at h
  split at h
  · next hcond =>
    obtain ⟨hmk, hsp⟩ := hcond
    split at h
    · exact absurd h (by simp)
    · next hcne =>
      set ws := s.takeWhile isJsWs with hws
      set r := s.drop ws.length with hr
      set q := r.drop 2 with hq
      set content := q.takeWhile (· ≠ '\n') with hcontent
      have h1 := Option.some.inj h
      have hout : out = "<li>".data ++ content ++ "</li>".data :=
        (Prod.mk.injEq _ _ _ _ ▸ h1).1.symm
      have hn : n = ws.length + 2 + content.length :=
        (Prod.mk.injEq _ _ _ _ ▸ h1).2.symm
      have hrs : TagSound r := by
        refine TagSound.peel_prefix hs (List.takeWhile_prefix _) ?_
        intro c hc
        exact isJsWs_ne_lt (List.mem_takeWhile_imp hc)
      have hm0 : ∃ m₀, (m₀ = '-' ∨ m₀ = '*') ∧ r = m₀ :: r.drop 1 := by
        rcases hmk with hmk | hmk
        · exact ⟨'-', Or.inl rfl, take_one_eq hmk⟩
        · exact ⟨'*', Or.inr rfl, take_one_eq hmk⟩
      obtain ⟨m₀, hm₀v, hm₀⟩ := hm0
      have hr1 : r.drop 1 = ' ' :: q := by
        have h2 := take_one_eq hsp
        have h3 : (r.drop 1).drop 1 = q := by
          rw [hq, List.drop_drop]
        rw [h3] at h2
        exact h2
      have hq1 : TagSound q := by
        have hr1s : TagSound (r.drop 1) := by
          refine (hm₀ ▸ hrs : TagSound (m₀ :: r.drop 1)).cons_inv ?_
          rcases hm₀v with hv | hv <;> (rw [hv]; decide)
        exact (hr1 ▸ hr1s : TagSound (' ' :: q)).cons_inv (by decide)
      have htake : q.take content.length = content := by
        rw [hcontent]
        exact take_takeWhile_length _ q
      have hqdec : q = content ++ q.drop content.length := by
        conv_lhs => rw [← List.take_append_drop content.length q]
        rw [htake]
      have hcontentS : TagSound content ∧ TagSound (q.drop content.length) := by
        rcases hrest : q.drop content.length with _ | ⟨d, rest'⟩
        · rw [hrest, List.append_nil] at hqdec
          exact ⟨hqdec ▸ hq1, hrest ▸ TagSound.nil⟩
        · have hdnl : d = '\n' := by
            have hdw : q.drop content.length = q.dropWhile (· ≠ '\n') := by
              rw [hcontent, drop_takeWhile_length]
            rw [hdw] at hrest
            have := dropWhile_head_not (· ≠ '\n') q d rest' hrest
            simpa using this
          subst hdnl
          rw [hrest] at hqdec
          obtain ⟨hc, hrest'⟩ :=
            TagSound.split hq1 content rest' '\n' hqdec nl_not_in_tags
          exact ⟨hc, hrest ▸ TagSound.chr '\n' rest' (by decide) (by decide)
            hrest'⟩
      subst hout hn
      constructor
      · exact TagSound.wrap (by decide) (by decide) hcontentS.1
      · have hmax : max 1 (ws.length + 2 + content.length) =
            ws.length + 2 + content.length := by omega
        rw [hmax]
        have hsdec : s.drop (ws.length + 2 + content.length) =
            q.drop content.length := by
          rw [hq, hr, List.drop_drop, List.drop_drop,
            show ws.length + (2 + content.length) =
              ws.length + 2 + content.length from by omega]
        rw [hsdec]
        exact hcontentS.2
  · exact absurd h (by simp)

/-- The unordered-list stage preserves soundness. -/
theorem ulStage_sound {s : List Char} (hs : TagSound s) :
    TagSound (ulStage s) := by
  refine scanReplLS_sound ulM
    (fun c => isJsWs c || decide (c = '-') || decide (c = '*')) ?_ ?_
    ulM_sound s true hs
  · intro c s' hne
    by_cases hw : isJsWs c = true
    · simp [hw]
    · have hwf : isJsWs c = false := by simpa using hw
      rw [ulM] at hne
      simp only [List.takeWhile_cons, hwf, Bool.false_eq_true, if_false,
        List.length_nil, List.drop_zero, List.take_succ_cons,
        List.take_zero] at hne
      split at hne
      · next hcond =>
        rcases hcond.1 with h | h
        · have hc : c = '-' := by simpa using h
          simp [hc]
        · have hc : c = '*' := by simpa using h
          simp [hc]
      · exact absurd rfl hne
  · decide

/-! ### Soundness of the table stage -/

/-- A successful `lastPipeIdx` exhibits a pipe at the reported index. -/
theorem lastPipeIdx_split : ∀ (l : List Char) (j : Nat),
    lastPipeIdx l = some j → ∃ a b, l = a ++ '|' :: b ∧ a.length = j := by
  intro l
  induction l with
  | nil =>
    intro j h
    simp [lastPipeIdx] at h
  | cons c rest ih =>
    intro j h
    rw [lastPipeIdx] at h
    split at h
    · next j' hr =>
      have hj : j' + 1 = j := Option.some.inj h
      obtain ⟨a, b, hab, hlen⟩ := ih j' hr
      refine ⟨c :: a, b, ?_, ?_⟩
      · rw [hab]
        rfl
      · rw [List.length_cons, hlen, hj]
    · split at h
      · next hc =>
        have hj : (0 : Nat) = j := Option.some.inj h
        refine ⟨[], rest, ?_, ?_⟩
        · rw [hc]
          rfl
        · simp [← hj]
      · exact absurd h (by simp)

/-- A successful `rowOne` splits its input at the row's closing pipe. -/
theorem rowOne_split : ∀ (s : List Char) (n : Nat), rowOne s = some n →
    ∃ x y, s = x ++ '|' :: y ∧ n = x.length + 1 := by
  intro s n h
  match s with
  | [] => simp [rowOne] at h
  | c :: r =>
    rw [rowOne] at h
    by_cases hc : c = '|'
    · rw [if_pos hc] at h
      split at h
      · next j hj =>
        split at h
        · next h1 =>
          have hn : j + 2 = n := Option.some.inj h
          obtain ⟨a, b, hab, hlen⟩ := lastPipeIdx_split _ j hj
          obtain ⟨rest, hrest⟩ :=
            List.takeWhile_prefix (l := r) (· ≠ '\n')
          refine ⟨c :: a, b ++ rest, ?_, ?_⟩
          · conv_lhs => rw [show r = r.takeWhile (· ≠ '\n') ++ rest from
              hrest.symm, hab]
            simp
          · rw [List.length_cons, hlen]
            omega
        · exact absurd h (by simp)
      · exact absurd h (by simp)
    · rw [if_neg hc] at h
      exact absurd h (by simp)

/-- Dropping a prefix plus an offset. -/
theorem drop_append_len (a b : List Char) (k : Nat) :
    (a ++ b).drop (a.length + k) = b.drop k := by
  rw [← List.drop_drop, List.drop_left]

/-- Dropping past a line and its separating newline. -/
theorem drop_line_cons (a b : List Char) (k : Nat) :
    (a ++ '\n' :: b).drop (a.length + 1 + k) = b.drop k := by
  rw [show a.length + 1 + k = a.length + (k + 1) from by omega,
    drop_append_len, List.drop_succ_cons]

/-- Concatenating sound pieces is sound. -/
theorem flatten_sound : ∀ {ls : List (List Char)},
    (∀ l ∈ ls, TagSound l) → TagSound ls.flatten := by
  intro ls
  induction ls with
  | nil =>
    intro _
    exact TagSound.nil
  | cons l ls ih =>
    intro h
    rw [List.flatten_cons]
    exact (h l (List.mem_cons_self _ _)).append
      (ih fun x hx => h x (List.mem_cons_of_mem _ hx))

/-- Header cells built from a sound header are sound. -/
theorem thCells_sound {header : List Char} (hh : TagSound header) :
    TagSound (thCells header) := by
  rw [thCells]
  refine flatten_sound ?_
  intro l hl
  rcases List.mem_map.mp hl with ⟨p, hp, hlp⟩
  have hps : TagSound p :=
    splitCh_sound pipe_not_in_tags hh p (List.mem_filter.mp hp).1
  rw [← hlp]
  exact TagSound.wrap (by decide) (by decide) (jsTrim_sound hps)

/-- A body row built from a sound row text is sound. -/
theorem trRow_sound {row : List Char} (hr : TagSound row) :
    TagSound (trRow row) := by
  rw [trRow]
  refine TagSound.wrap (by decide) (by decide) ?_
  refine flatten_sound ?_
  intro l hl
  rcases List.mem_map.mp hl with ⟨p, hp, hlp⟩
  have hps : TagSound p :=
    splitCh_sound pipe_not_in_tags hr p (List.mem_filter.mp hp).1
  rw [← hlp]
  exact TagSound.wrap (by decide) (by decide) (jsTrim_sound hps)

/-- The table callback's replacement is sound when header and rows text
are. -/
theorem tableOut_sound {header rowsTxt : List Char} (hh : TagSound header)
    (hr : TagSound rowsTxt) : TagSound (tableOut header rowsTxt) := by
  have l1 : TagSound ("<table><thead><tr>".data) := by
    have h := TagSound.tag "<table>".data _ (by decide)
      (TagSound.tag "<thead>".data _ (by decide)
        (TagSound.tag "<tr>".data [] (by decide) TagSound.nil))
    have he : "<table>".data ++ ("<thead>".data ++ ("<tr>".data ++ [])) =
        "<table><thead><tr>".data := by decide
    exact he ▸ h
  have l2 : TagSound ("</tr></thead><tbody>".data) := by
    have h := TagSound.tag "</tr>".data _ (by decide)
      (TagSound.tag "</thead>".data _ (by decide)
        (TagSound.tag "<tbody>".data [] (by decide) TagSound.nil))
    have he : "</tr>".data ++ ("</thead>".data ++ ("<tbody>".data ++ [])) =
        "</tr></thead><tbody>".data := by decide
    exact he ▸ h
  have l3 : TagSound ("</tbody></table>".data) := by
    have h := TagSound.tag "</tbody>".data _ (by decide)
      (TagSound.tag "</table>".data [] (by decide) TagSound.nil)
    have he : "</tbody>".data ++ ("</table>".data ++ []) =
        "</tbody></table>".data := by decide
    exact he ▸ h
  have hrows : TagSound (((splitCh '\n' (jsTrim rowsTxt)).map trRow).flatten) := by
    refine flatten_sound ?_
    intro l hl
    rcases List.mem_map.mp hl with ⟨p, hp, hlp⟩
    have hps : TagSound p :=
      splitCh_sound nl_not_in_tags (jsTrim_sound hr) p hp
    rw [← hlp]
    exact trRow_sound hps
  rw [tableOut]
  exact (((l1.append (thCells_sound hh)).append l2).append hrows).append l3

/-- Soundness of the greedy row group, by fuel. -/
theorem rowsGo_sound_aux : ∀ (fuel : Nat) (s : List Char), s.length ≤ fuel →
    TagSound s → ∀ txt m, rowsGo s = some (txt, m) →
    TagSound txt ∧ TagSound (s.drop m) := by
  intro fuel
  induction fuel with
  | zero =>
    intro s hle hs txt m h
    have hnil : s = [] := List.length_eq_zero.mp (Nat.le_zero.mp hle)
    subst hnil
    rw [rowsGo] at h
    simp [rowOne] at h
  | succ f ih =>
    intro s hle hs txt m h
    rw [rowsGo] at h
    split at h
    · exact absurd h (by simp)
    · next k hrow =>
      obtain ⟨x, y, hxy, hk⟩ := rowOne_split s k hrow
      obtain ⟨hx, hy⟩ := TagSound.split hs x y '|' hxy pipe_not_in_tags
      have htk : s.take k = x ++ ['|'] := by
        rw [hxy, show x ++ '|' :: y = (x ++ ['|']) ++ y from by simp]
        exact List.take_left' (by simp [hk])
      have hdk : s.drop k = y := by
        rw [hxy, show x ++ '|' :: y = (x ++ ['|']) ++ y from by simp]
        exact List.drop_left' (by simp [hk])
      have htks : TagSound (s.take k) := by
        rw [htk]
        exact hx.append
          (TagSound.chr '|' [] (by decide) (by decide) TagSound.nil)
      split at h
      · next s'' hnl =>
        have hy' : y = '\n' :: s'' := by rw [← hdk, hnl]
        have hs'' : TagSound s'' :=
          (hy' ▸ hy : TagSound ('\n' :: s'')).cons_inv (by decide)
        have hlen'' : s''.length ≤ f := by
          have hld := congrArg List.length hnl
          simp only [List.length_drop, List.length_cons] at hld
          have hk1 : 1 ≤ k := by omega
          omega
        split at h
        · next txt' m' hrec =>
          have h1 := Option.some.inj h
          have htxt : txt = s.take k ++ '\n' :: txt' :=
            (Prod.mk.injEq _ _ _ _ ▸ h1).1.symm
          have hm : m = k + 1 + m' :=
            (Prod.mk.injEq _ _ _ _ ▸ h1).2.symm
          obtain ⟨htxt', hdrop'⟩ := ih s'' hlen'' hs'' txt' m' hrec
          constructor
          · rw [htxt]
            exact htks.append
              (TagSound.chr '\n' _ (by decide) (by decide) htxt')
          · rw [hm]
            have hstep : s.drop (k + 1 + m') = s''.drop m' := by
              rw [show k + 1 + m' = k + (1 + m') from by omega,
                ← List.drop_drop, hnl,
                show 1 + m' = m' + 1 from by omega, List.drop_succ_cons]
            rw [hstep]
            exact hdrop'
        · have h1 := Option.some.inj h
          have htxt : txt = s.take k ++ ['\n'] :=
            (Prod.mk.injEq _ _ _ _ ▸ h1).1.symm
          have hm : m = k + 1 :=
            (Prod.mk.injEq _ _ _ _ ▸ h1).2.symm
          constructor
          · rw [htxt]
            exact htks.append
              (TagSound.chr '\n' [] (by decide) (by decide) TagSound.nil)
          · rw [hm]
            have hstep : s.drop (k + 1) = s'' := by
              rw [show k + 1 = k + (0 + 1) from by omega,
                ← List.drop_drop, hnl, List.drop_succ_cons, List.drop_zero]
            rw [hstep]
            exact hs''
      · have h1 := Option.some.inj h
        have htxt : txt = s.take k :=
          (Prod.mk.injEq _ _ _ _ ▸ h1).1.symm
        have hm : m = k :=
          (Prod.mk.injEq _ _ _ _ ▸ h1).2.symm
        constructor
        · rw [htxt]
          exact htks
        · rw [hm, hdk]
          exact hy

/-- `rowsGo_sound_aux` at full fuel. -/
theorem rowsGo_sound (s : List Char) (hs : TagSound s) :
    ∀ txt m, rowsGo s = some (txt, m) →
    TagSound txt ∧ TagSound (s.drop m) :=
  rowsGo_sound_aux s.length s (Nat.le_refl _) hs

/-- Match soundness for the table matcher. -/
theorem tableM_sound : ∀ s, TagSound s → ∀ out n, tableM s = some (out, n) →
    TagSound out ∧ TagSound (s.drop (max 1 n)) := by
  intro s hs out n h
  rw [tableM] at h
  simp only [] at h
  split at h
  · next hpipe =>
    split at h
    · next hg1 =>
      split at h
      · next hg2 =>
        split at h
        · next txt m hrows =>
          set l₁ := s.takeWhile (· ≠ '\n') with hl₁
          set r₁ := s.drop l₁.length with hr₁
          set l₂ := (r₁.drop 1).takeWhile (· ≠ '\n') with hl₂
          set r₂ := (r₁.drop 1).drop l₂.length with hr₂
          obtain ⟨hg1a, hg1b, hg1c⟩ := hg1
          obtain ⟨hg2a, hg2b, hg2c, hg2d, hg2e⟩ := hg2
          have h1 := Option.some.inj h
          have hout : out = tableOut ((l₁.drop 1).dropLast) txt :=
            (Prod.mk.injEq _ _ _ _ ▸ h1).1.symm
          have hn : n = l₁.length + 1 + l₂.length + 1 + m :=
            (Prod.mk.injEq _ _ _ _ ▸ h1).2.symm
          have hsdec1 : l₁ ++ r₁ = s := by
            rw [hr₁, hl₁, drop_takeWhile_length,
              List.takeWhile_append_dropWhile]
          have hr1d : r₁ = '\n' :: r₁.drop 1 := take_one_eq hg1c
          have hsplit1 : s = l₁ ++ '\n' :: r₁.drop 1 := by
            conv_lhs => rw [← hsdec1, hr1d]
          obtain ⟨hL1, hR1⟩ :=
            TagSound.split hs l₁ (r₁.drop 1) '\n' hsplit1 nl_not_in_tags
          have hsdec2 : l₂ ++ r₂ = r₁.drop 1 := by
            rw [hr₂, hl₂, drop_takeWhile_length,
              List.takeWhile_append_dropWhile]
          have hr2d : r₂ = '\n' :: r₂.drop 1 := take_one_eq hg2e
          have hsplit2 : r₁.drop 1 = l₂ ++ '\n' :: r₂.drop 1 := by
            conv_lhs => rw [← hsdec2, hr2d]
          obtain ⟨hL2, hR2⟩ :=
            TagSound.split hR1 l₂ (r₂.drop 1) '\n' hsplit2 nl_not_in_tags
          obtain ⟨htxt, hrest⟩ := rowsGo_sound (r₂.drop 1) hR2 txt m hrows
          have hl1head : l₁ = '|' :: (s.drop 1).takeWhile (· ≠ '\n') := by
            conv_lhs => rw [hl₁, take_one_eq hpipe]
            rw [List.takeWhile_cons,
              if_pos (by decide : (decide ('|' ≠ '\n')) = true)]
          have hT : TagSound (l₁.drop 1) := by
            have h' : TagSound ('|' :: (s.drop 1).takeWhile (· ≠ '\n')) :=
              hl1head ▸ hL1
            have hd : l₁.drop 1 = (s.drop 1).takeWhile (· ≠ '\n') := by
              rw [hl1head]
              simp
            rw [hd]
            exact h'.cons_inv (by decide)
          have hlast : (l₁.drop 1).getLast? = some '|' := by
            rcases hw : (s.drop 1).takeWhile (· ≠ '\n') with _ | ⟨d, tail⟩
            · rw [hw] at hl1head
              rw [hl1head] at hg1a
              simp at hg1a
            · have hd : l₁.drop 1 = d :: tail := by
                rw [hl1head, hw]
                simp
              rw [hd]
              have hcc : l₁ = '|' :: d :: tail := by rw [hl1head, hw]
              rw [hcc, List.getLast?_cons_cons] at hg1b
              exact hg1b
          have hheaddec : l₁.drop 1 = (l₁.drop 1).dropLast ++ '|' :: [] := by
            have hgl := List.dropLast_append_getLast? '|'
              (show '|' ∈ (l₁.drop 1).getLast? from hlast)
            exact hgl.symm
          have hHdr : TagSound ((l₁.drop 1).dropLast) :=
            (TagSound.split hT _ _ '|' hheaddec pipe_not_in_tags).1
          constructor
          · rw [hout]
            exact tableOut_sound hHdr htxt
          · have hmax : max 1 n = n := by
              rw [hn]
              omega
            rw [hmax, hn,
              show l₁.length + 1 + l₂.length + 1 + m =
                l₁.length + 1 + (l₂.length + 1 + m) from by omega]
            rw [hsplit1, drop_line_cons, hsplit2, drop_line_cons]
            exact hrest
        · exact absurd h (by simp)
      · exact absurd h (by simp)
    · exact absurd h (by simp)
  · exact absurd h (by simp)

/-- The table stage preserves soundness. -/
theorem tableStage_sound {s : List Char} (hs : TagSound s) :
    TagSound (tableStage s) := by
  refine scanRepl_sound tableM (fun c => decide (c = '|')) ?_ ?_
    tableM_sound s hs
  · intro c s' hne
    rw [tableM] at hne
    split at hne
    · next hp =>
      have hc : c = '|' := by
        simpa using hp
      simp [hc]
    · exact absurd rfl hne
  · intro t ht c hc
    simpa using fun h : c = '|' => pipe_not_in_tags t ht (h ▸ hc)

/-! ### Soundness of the final list-wrap stage -/

/-- The only tag prefix-comparable with `<li>` is `<li>` itself. -/
theorem li_open_uniq : ∀ t ∈ Tags,
    ("<li>".data <+: t ∨ t <+: "<li>".data) → t = "<li>".data := by decide

/-- The only tag prefix-comparable with `</li>` is `</li>` itself. -/
theorem li_close_uniq : ∀ t ∈ Tags,
    ("</li>".data <+: t ∨ t <+: "</li>".data) → t = "</li>".data := by decide

/-- Taking a prefix plus an offset. -/
theorem take_append_len (a b : List Char) (k : Nat) :
    (a ++ b).take (a.length + k) = a ++ b.take k := by
  induction a with
  | nil => simp
  | cons c a ih =>
    rw [List.cons_append, List.length_cons,
      show a.length + 1 + k = a.length + k + 1 from by omega,
      List.take_succ_cons, ih, List.cons_append]

/-- Taking past a line and its separating newline. -/
theorem take_line_cons (a b : List Char) (k : Nat) :
    (a ++ '\n' :: b).take (a.length + 1 + k) = a ++ '\n' :: b.take k := by
  rw [show a.length + 1 + k = a.length + (k + 1) from by omega,
    take_append_len, List.take_succ_cons]

/-- The `</li>` search walks through `<`-free characters untouched. -/
theorem upToCloseLi_walk : ∀ (u : List Char), (∀ c ∈ u, c ≠ '<') →
    ∀ s', upToCloseLi (u ++ s') =
      (upToCloseLi s').map fun p => (u ++ p.1, p.2 + u.length) := by
  intro u
  induction u with
  | nil =>
    intro _ s'
    rcases h : upToCloseLi s' with _ | ⟨p, k⟩ <;> simp [h]
  | cons c u' ih =>
    intro hu s'
    rw [List.cons_append, upToCloseLi]
    have hg : "</li>".data.isPrefixOf (c :: (u' ++ s')) = false := by
      by_contra hne
      have hb : "</li>".data.isPrefixOf (c :: (u' ++ s')) = true := by
        simpa using hne
      exact hu c (List.mem_cons_self _ _) (isPrefixOf_cons_head hb)
    rw [if_neg (by simp [hg])]
    rw [ih (fun d hd => hu d (List.mem_cons_of_mem _ hd)) s']
    rcases h : upToCloseLi s' with _ | ⟨p, k⟩
    · simp
    · simp only [Option.map_some', List.length_cons]
      rfl

/-- The search fires immediately on a leading `</li>` tag. -/
theorem upToCloseLi_tag_hit (s₀ : List Char) :
    upToCloseLi ("</li>".data ++ s₀) = some ([], 5) := by
  have hsplit : "</li>".data = '<' :: "/li>".data := by decide
  have hform : "</li>".data ++ s₀ = '<' :: ("/li>".data ++ s₀) := by
    rw [hsplit, List.cons_append]
  rw [hform, upToCloseLi,
    if_pos (show ("</li>".data.isPrefixOf ('<' :: ("/li>".data ++ s₀))) = true
      from List.isPrefixOf_iff_prefix.mpr ⟨s₀, by rw [hform]⟩)]

/-- The search walks over a whole non-`</li>` tag. -/
theorem upToCloseLi_tag_miss {t : List Char} (ht : t ∈ Tags)
    (hne : t ≠ "</li>".data) (s₀ : List Char) :
    upToCloseLi (t ++ s₀) =
      (upToCloseLi s₀).map fun p => (t ++ p.1, p.2 + t.length) := by
  have htd : t = '<' :: t.drop 1 := take_one_eq (tags_head t ht)
  have hform : t ++ s₀ = '<' :: (t.drop 1 ++ s₀) := by
    conv_lhs => rw [htd, List.cons_append]
  rw [hform, upToCloseLi]
  have hg : ("</li>".data.isPrefixOf ('<' :: (t.drop 1 ++ s₀))) = false := by
    by_contra hne2
    have hb : "</li>".data.isPrefixOf ('<' :: (t.drop 1 ++ s₀)) = true := by
      simpa using hne2
    have hpre : "</li>".data <+: t ++ s₀ := by
      rw [hform]
      exact List.isPrefixOf_iff_prefix.mp hb
    have hpre2 : t <+: t ++ s₀ := List.prefix_append t s₀
    exact hne (li_close_uniq t ht
      (List.prefix_or_prefix_of_prefix hpre hpre2))
  rw [if_neg (show ¬("</li>".data.isPrefixOf ('<' :: (t.drop 1 ++ s₀)) = true)
    from by rw [hg]; simp)]
  rw [upToCloseLi_walk (t.drop 1) (tags_interior t ht) s₀]
  rcases h : upToCloseLi s₀ with _ | ⟨p, k⟩
  · simp
  · simp only [Option.map_some', Option.some.injEq, Prod.mk.injEq]
    have hpos : 1 ≤ t.length := List.length_pos.mpr (tags_ne_nil t ht)
    constructor
    · conv_rhs => rw [htd, List.cons_append]
    · simp only [List.length_drop]
      omega

/-- What a successful `</li>` search says about a sound input. -/
theorem upToCloseLi_sound : ∀ {s : List Char}, TagSound s →
    ∀ p k, upToCloseLi s = some (p, k) →
    TagSound p ∧ k = p.length + 5 ∧
      s = (p ++ "</li>".data) ++ s.drop k ∧ TagSound (s.drop k) := by
  intro s hs
  induction hs with
  | nil =>
    intro p k h
    rw [upToCloseLi] at h
    exact absurd h (by simp)
  | chr c s₀ hc1 hc2 hs₀ ih =>
    intro p k h
    rw [upToCloseLi] at h
    have hg : "</li>".data.isPrefixOf (c :: s₀) = false := by
      by_contra hne
      have hb : "</li>".data.isPrefixOf (c :: s₀) = true := by simpa using hne
      exact hc1 (isPrefixOf_cons_head hb)
    rw [if_neg (by simp [hg])] at h
    rcases Option.map_eq_some'.mp h with ⟨⟨p₀, k₀⟩, hrec, hpk⟩
    have hp0 : p = c :: p₀ := (Prod.mk.injEq _ _ _ _ ▸ hpk).1.symm
    have hk0 : k = k₀ + 1 := (Prod.mk.injEq _ _ _ _ ▸ hpk).2.symm
    obtain ⟨hps, hks, hdec, hq⟩ := ih p₀ k₀ hrec
    have hdk : (c :: s₀).drop k = s₀.drop k₀ := by
      rw [hk0, List.drop_succ_cons]
    refine ⟨?_, ?_, ?_, ?_⟩
    · rw [hp0]
      exact TagSound.chr c p₀ hc1 hc2 hps
    · rw [hp0, hk0, List.length_cons]
      omega
    · rw [hdk, hp0]
      conv_lhs => rw [hdec]
      simp
    · rw [hdk]
      exact hq
  | tag t s₀ ht hs₀ ih =>
    intro p k h
    by_cases hteq : t = "</li>".data
    · subst hteq
      rw [upToCloseLi_tag_hit s₀] at h
      have h1 := Option.some.inj h
      have hp0 : p = [] := (Prod.mk.injEq _ _ _ _ ▸ h1).1.symm
      have hk0 : k = 5 := (Prod.mk.injEq _ _ _ _ ▸ h1).2.symm
      have hdk : ("</li>".data ++ s₀).drop k = s₀ := by
        rw [hk0]
        exact List.drop_left' (by decide)
      refine ⟨hp0 ▸ TagSound.nil, ?_, ?_, ?_⟩
      · rw [hp0, hk0]
        rfl
      · rw [hp0, hdk]
        simp
      · rw [hdk]
        exact hs₀
    · rw [upToCloseLi_tag_miss ht hteq s₀] at h
      rcases Option.map_eq_some'.mp h with ⟨⟨p₀, k₀⟩, hrec, hpk⟩
      have hp0 : p = t ++ p₀ := (Prod.mk.injEq _ _ _ _ ▸ hpk).1.symm
      have hk0 : k = k₀ + t.length := (Prod.mk.injEq _ _ _ _ ▸ hpk).2.symm
      obtain ⟨hps, hks, hdec, hq⟩ := ih p₀ k₀ hrec
      have hdk : (t ++ s₀).drop k = s₀.drop k₀ := by
        rw [hk0, show k₀ + t.length = t.length + k₀ from by omega,
          drop_append_len]
      refine ⟨?_, ?_, ?_, ?_⟩
      · rw [hp0]
        exact TagSound.tag t p₀ ht hps
      · rw [hp0, hk0, List.length_append]
        omega
      · rw [hdk, hp0]
        conv_lhs => rw [hdec]
        simp
      · rw [hdk]
        exact hq

/-- A sound string with a prefix-isolated tag as prefix starts with that
whole tag. -/
theorem TagSound.prefix_tag {u : List Char} (hu : u ∈ Tags)
    (huniq : ∀ t ∈ Tags, (u <+: t ∨ t <+: u) → t = u)
    {s : List Char} (hs : TagSound s) (hp : u.isPrefixOf s = true) :
    s = u ++ s.drop u.length ∧ TagSound (s.drop u.length) := by
  cases hs with
  | nil =>
    exfalso
    have hpre := List.isPrefixOf_iff_prefix.mp hp
    have h0 : u = [] := by
      have hl := hpre.length_le
      simp only [List.length_nil, Nat.le_zero] at hl
      exact List.length_eq_zero.mp hl
    exact tags_ne_nil u hu h0
  | chr c s₀ hc1 hc2 hs₀ =>
    exfalso
    have hud : u = '<' :: u.drop 1 := take_one_eq (tags_head u hu)
    have hb : ('<' :: u.drop 1).isPrefixOf (c :: s₀) = true := by
      rw [← hud]
      exact hp
    exact hc1 (isPrefixOf_cons_head hb)
  | tag t s₀ ht hs₀ =>
    have hpre : u <+: t ++ s₀ := List.isPrefixOf_iff_prefix.mp hp
    have ht2 : t <+: t ++ s₀ := List.prefix_append t s₀
    have heq : t = u :=
      huniq t ht (List.prefix_or_prefix_of_prefix hpre ht2)
    subst heq
    have hd : (t ++ s₀).drop t.length = s₀ := List.drop_left t s₀
    rw [hd]
    exact ⟨rfl, hs₀⟩

/-- Match soundness for one list piece. -/
theorem liPiece_sound {s : List Char} (hs : TagSound s) :
    ∀ n, liPiece s = some n →
    TagSound (s.take n) ∧ TagSound (s.drop n) ∧ n ≤ s.length := by
  intro n h
  rw [liPiece] at h
  split at h
  · next hpre =>
    rcases Option.map_eq_some'.mp h with ⟨⟨p, k⟩, hrec, hn⟩
    obtain ⟨hd, hr⟩ := TagSound.prefix_tag (by decide) li_open_uniq hs hpre
    have hdec4 : s = "<li>".data ++ s.drop 4 := hd
    have hrest4 : TagSound (s.drop 4) := hr
    obtain ⟨hps, hks, hdec, hq⟩ := upToCloseLi_sound hrest4 p k hrec
    have htakek : (s.drop 4).take k = p ++ "</li>".data := by
      conv_lhs => rw [hdec]
      refine List.take_left' ?_
      rw [List.length_append, hks,
        show ("</li>".data).length = 5 from rfl]
    have hlen : 4 + k ≤ s.length := by
      have h1 := congrArg List.length hdec4
      have h2 := congrArg List.length hdec
      simp only [List.length_append, List.length_drop,
        show ("<li>".data).length = 4 from rfl,
        show ("</li>".data).length = 5 from rfl] at h1 h2
      omega
    refine ⟨?_, ?_, ?_⟩
    · rw [← hn]
      have hfin : s.take (4 + k) = "<li>".data ++ (p ++ "</li>".data) := by
        conv_lhs => rw [hdec4]
        rw [show (4 : Nat) + k = ("<li>".data).length + k from rfl,
          take_append_len, htakek]
      rw [hfin]
      exact TagSound.tag _ _ (by decide)
        (hps.append (TagSound.of_tag (by decide)))
    · rw [← hn]
      have hdfin : s.drop (4 + k) = (s.drop 4).drop k :=
        (List.drop_drop k 4 s).symm
      rw [hdfin]
      exact hq
    · rw [← hn]
      exact hlen
  · exact absurd h (by simp)

/-- `ulWrapGo` fails when no list piece starts here. -/
theorem ulWrapGo_none {s : List Char} (h : liPiece s = none) :
    ulWrapGo s = none := by
  rw [ulWrapGo]
  split
  · rfl
  · next n hn =>
    rw [h] at hn
    exact absurd hn (by simp)

/-- `ulWrapGo` consumes at least one character. -/
theorem ulWrapGo_pos {s : List Char} {n : Nat} (h : ulWrapGo s = some n) :
    1 ≤ n := by
  rw [ulWrapGo] at h
  split at h
  · exact absurd h (by simp)
  · next n₀ hli =>
    have hp := liPiece_pos hli
    split at h
    · split at h
      · have := Option.some.inj h
        omega
      · have := Option.some.inj h
        omega
    · split at h
      · have := Option.some.inj h
        omega
      · have := Option.some.inj h
        omega

/-- Soundness of the greedy list-piece group, by fuel. -/
theorem ulWrapGo_sound_aux : ∀ (fuel : Nat) (s : List Char),
    s.length ≤ fuel → TagSound s → ∀ n, ulWrapGo s = some n →
    TagSound (s.take n) ∧ TagSound (s.drop n) := by
  intro fuel
  induction fuel with
  | zero =>
    intro s hle hs n h
    have hnil : s = [] := List.length_eq_zero.mp (Nat.le_zero.mp hle)
    subst hnil
    rw [ulWrapGo_none (by rw [liPiece, if_neg (by decide)])] at h
    exact absurd h (by simp)
  | succ f ih =>
    intro s hle hs n h
    rw [ulWrapGo] at h
    split at h
    · exact absurd h (by simp)
    · next n₀ hli =>
      obtain ⟨htake, hdrop, hnle⟩ := liPiece_sound hs n₀ hli
      have hpos : 1 ≤ n₀ := liPiece_pos hli
      have hntake : (s.take n₀).length = n₀ := by
        rw [List.length_take]
        omega
      split at h
      · next s'' hnl =>
        have hs'' : TagSound s'' := by
          have hcons : TagSound ('\n' :: s'') := hnl ▸ hdrop
          exact hcons.cons_inv (by decide)
        have hlen'' : s''.length ≤ f := by
          have hld := congrArg List.length hnl
          simp only [List.length_drop, List.length_cons] at hld
          omega
        have hsdec : s = s.take n₀ ++ '\n' :: s'' := by
          conv_lhs => rw [← List.take_append_drop n₀ s, hnl]
        split at h
        · next m hrec =>
          have hn : n₀ + 1 + m = n := Option.some.inj h
          obtain ⟨ht'', hd''⟩ := ih s'' hlen'' hs'' m hrec
          constructor
          · rw [← hn]
            have htk : s.take (n₀ + 1 + m) =
                s.take n₀ ++ '\n' :: s''.take m := by
              conv_lhs => rw [hsdec]
              rw [show n₀ + 1 + m = (s.take n₀).length + 1 + m from by
                rw [hntake], take_line_cons]
            rw [htk]
            exact htake.append
              (TagSound.chr '\n' _ (by decide) (by decide) ht'')
          · rw [← hn]
            have hdk : s.drop (n₀ + 1 + m) = s''.drop m := by
              rw [show n₀ + 1 + m = n₀ + (1 + m) from by omega,
                ← List.drop_drop, hnl,
                show 1 + m = m + 1 from by omega, List.drop_succ_cons]
            rw [hdk]
            exact hd''
        · have hn : n₀ + 1 = n := Option.some.inj h
          constructor
          · rw [← hn]
            have htk : s.take (n₀ + 1) = s.take n₀ ++ ['\n'] := by
              conv_lhs => rw [hsdec]
              rw [show n₀ + 1 = (s.take n₀).length + 1 + 0 from by
                rw [hntake], take_line_cons, List.take_zero]
            rw [htk]
            exact htake.append
              (TagSound.chr '\n' [] (by decide) (by decide) TagSound.nil)
          · rw [← hn]
            have hdk : s.drop (n₀ + 1) = s'' := by
              rw [show n₀ + 1 = n₀ + (0 + 1) from by omega,
                ← List.drop_drop, hnl, List.drop_succ_cons, List.drop_zero]
            rw [hdk]
            exact hs''
      · split at h
        · next m hrec =>
          have hn : n₀ + m = n := Option.some.inj h
          have hlend : (s.drop n₀).length ≤ f := by
            simp only [List.length_drop]
            omega
          obtain ⟨ht', hd'⟩ := ih (s.drop n₀) hlend hdrop m hrec
          constructor
          · rw [← hn]
            have htk : s.take (n₀ + m) =
                s.take n₀ ++ (s.drop n₀).take m := by
              conv_lhs => rw [← List.take_append_drop n₀ s]
              rw [show n₀ + m = (s.take n₀).length + m from by
                rw [hntake], take_append_len]
            rw [htk]
            exact htake.append ht'
          · rw [← hn]
            have hdk : s.drop (n₀ + m) = (s.drop n₀).drop m :=
              (List.drop_drop m n₀ s).symm
            rw [hdk]
            exact hd'
        · have hn : n₀ = n := Option.some.inj h
          rw [← hn]
          exact ⟨htake, hdrop⟩

/-- `ulWrapGo_sound_aux` at full fuel. -/
theorem ulWrapGo_sound (s : List Char) (hs : TagSound s) :
    ∀ n, ulWrapGo s = some n →
    TagSound (s.take n) ∧ TagSound (s.drop n) :=
  ulWrapGo_sound_aux s.length s (Nat.le_refl _) hs

/-- The wrap matcher never fires off a `<`. -/
theorem ulWrapM_cons_none {c : Char} {s' : List Char} (hc : c ≠ '<') :
    ulWrapM (c :: s') = none := by
  have hli : liPiece (c :: s') = none := by
    rw [liPiece, if_neg (fun hp => hc (isPrefixOf_cons_head hp))]
  rw [ulWrapM, ulWrapGo_none hli]
  rfl

/-- Match soundness for the wrap matcher. -/
theorem ulWrapM_sound : ∀ s, TagSound s → ∀ out n,
    ulWrapM s = some (out, n) →
    TagSound out ∧ TagSound (s.drop (max 1 n)) := by
  intro s hs out n h
  rw [ulWrapM] at h
  rcases Option.map_eq_some'.mp h with ⟨n₀, hgo, hpair⟩
  have hout : out = "<ul>".data ++ s.take n₀ ++ "</ul>".data :=
    (Prod.mk.injEq _ _ _ _ ▸ hpair).1.symm
  have hn : n = n₀ := (Prod.mk.injEq _ _ _ _ ▸ hpair).2.symm
  obtain ⟨htk, hdp⟩ := ulWrapGo_sound s hs n₀ hgo
  have hpos := ulWrapGo_pos hgo
  constructor
  · rw [hout]
    exact TagSound.wrap (by decide) (by decide) htk
  · rw [hn, show max 1 n₀ = n₀ from by omega]
    exact hdp

/-- Master soundness for an unanchored scan whose matcher never fires off a
`<` (so it can only fire at a tag head). -/
theorem scanRepl_sound_tagfire (m : List Char → Option (List Char × Nat))
    (hchr : ∀ (c : Char) (s : List Char), c ≠ '<' → m (c :: s) = none)
    (h3 : ∀ s, TagSound s → ∀ out n, m s = some (out, n) →
      TagSound out ∧ TagSound (s.drop (max 1 n))) :
    ∀ (fuel : Nat) (s : List Char), s.length ≤ fuel → TagSound s →
      TagSound (scanRepl m s) := by
  intro fuel
  induction fuel with
  | zero =>
    intro s hle hs
    have hnil : s = [] := List.length_eq_zero.mp (Nat.le_zero.mp hle)
    subst hnil
    rw [scanRepl]
    exact TagSound.nil
  | succ f ih =>
    intro s hle hs
    cases hs with
    | nil =>
      rw [scanRepl]
      exact TagSound.nil
    | chr c s₀ hc1 hc2 hs₀ =>
      rw [scanRepl, hchr c s₀ hc1]
      refine TagSound.chr _ _ hc1 hc2 (ih s₀ ?_ hs₀)
      simp only [List.length_cons] at hle
      omega
    | tag t s₀ ht hs₀ =>
      rcases hm : m (t ++ s₀) with _ | ⟨out, k⟩
      · have hskip : scanRepl m (t ++ s₀) = t ++ scanRepl m s₀ := by
          apply scanRepl_skip
          intro v hv hsuf
          obtain ⟨u, hu⟩ := hsuf
          rcases v with _ | ⟨c, v'⟩
          · exact absurd rfl hv
          · rcases u with _ | ⟨d, u'⟩
            · rw [List.nil_append] at hu
              rw [hu]
              exact hm
            · have hcd : c ∈ t.drop 1 := by
                have hdt : t.drop 1 = u' ++ c :: v' := by
                  rw [← hu]
                  simp
                rw [hdt]
                simp
              rw [List.cons_append]
              exact hchr c (v' ++ s₀) (tags_interior t ht c hcd)
        rw [hskip]
        refine TagSound.tag t _ ht (ih s₀ ?_ hs₀)
        have hpos : 1 ≤ t.length := List.length_pos.mpr (tags_ne_nil t ht)
        rw [List.length_append] at hle
        omega
      · obtain ⟨hout, hdrop⟩ :=
          h3 (t ++ s₀) (TagSound.tag t s₀ ht hs₀) out k hm
        have htd : t = '<' :: t.drop 1 := take_one_eq (tags_head t ht)
        have hform : t ++ s₀ = '<' :: (t.drop 1 ++ s₀) := by
          conv_lhs => rw [htd, List.cons_append]
        have hm2 : m ('<' :: (t.drop 1 ++ s₀)) = some (out, k) := by
          rw [← hform]
          exact hm
        rw [hform, scanRepl, hm2, ← hform]
        refine hout.append (ih _ ?_ hdrop)
        have h1k : 1 ≤ max 1 k := le_max_left _ _
        have hpos : 1 ≤ t.length := List.length_pos.mpr (tags_ne_nil t ht)
        simp only [List.length_drop, List.length_append] at *
        omega

/-- The final wrap stage preserves soundness. -/
theorem ulWrapStage_sound {s : List Char} (hs : TagSound s) :
    TagSound (ulWrapStage s) :=
  scanRepl_sound_tagfire ulWrapM
    (fun _ _ hc => ulWrapM_cons_none hc) ulWrapM_sound
    s.length s (Nat.le_refl _) hs

/-! ### The escape runs first and removes every raw angle bracket -/

/-- `replaceChar` distributes over concatenation. -/
theorem replaceChar_append (t : Char) (rep a b : List Char) :
    replaceChar t rep (a ++ b) =
      replaceChar t rep a ++ replaceChar t rep b := by
  simp [replaceChar]

/-- The three chained escapes act per character. -/
theorem escapeHtml_cons (c : Char) (s : List Char) :
    escapeHtml (c :: s) = escChar c ++ escapeHtml s := by
  rw [escapeHtml, escapeHtml]
  rw [show replaceChar '&' "&amp;".data (c :: s) =
      (if c = '&' then "&amp;".data else [c]) ++
        replaceChar '&' "&amp;".data s from by simp [replaceChar]]
  rw [replaceChar_append, replaceChar_append]
  congr 1
  by_cases h1 : c = '&'
  · subst h1
    decide
  · by_cases h2 : c = '<'
    · subst h2
      decide
    · by_cases h3 : c = '>'
      · subst h3
        decide
      · simp [replaceChar, escChar, h1, h2, h3]

/-- `escapeHtml` is exactly the per-character entity substitution. -/
theorem escapeHtml_eq (s : List Char) : escapeHtml s = s.flatMap escChar := by
  induction s with
  | nil => rfl
  | cons c s ih => rw [escapeHtml_cons, List.flatMap_cons, ih]

/-- No escaped character contains a raw angle bracket. -/
theorem escChar_no_angle (c : Char) :
    ((escChar c).all fun d => !(d == '<') && !(d == '>')) = true := by
  rw [escChar]
  by_cases h1 : c = '&'
  · subst h1
    decide
  · by_cases h2 : c = '<'
    · subst h2
      decide
    · by_cases h3 : c = '>'
      · subst h3
        decide
      · rw [if_neg h1, if_neg h2, if_neg h3]
        simp [h2, h3]

/-- The escaped input contains no raw angle bracket. -/
theorem escapeHtml_no_angle (s : List Char) :
    ((escapeHtml s).all fun c => !(c == '<') && !(c == '>')) = true := by
  induction s with
  | nil => decide
  | cons c s ih =>
    rw [escapeHtml_cons, List.all_append, ih, Bool.and_true]
    exact escChar_no_angle c

/-- An angle-free string is vacuously sound. -/
theorem TagSound.of_no_angle {l : List Char}
    (h : (l.all fun c => !(c == '<') && !(c == '>')) = true) :
    TagSound l := by
  induction l with
  | nil => exact TagSound.nil
  | cons c l ih =>
    rw [List.all_cons, Bool.and_eq_true] at h
    have h1 := h.1
    rw [Bool.and_eq_true, Bool.not_eq_true', Bool.not_eq_true'] at h1
    have hc1 : c ≠ '<' := by simpa using h1.1
    have hc2 : c ≠ '>' := by simpa using h1.2
    exact TagSound.chr c l hc1 hc2 (ih h.2)

/-- Every stage of the replace chain preserves soundness. -/
theorem mdPipeline_sound {s : List Char} (hs : TagSound s) :
    TagSound (mdPipeline s) := by
  rw [mdPipeline]
  exact ulWrapStage_sound (mapLines_sound paraLine_sound (fenceStage_sound
    (tableStage_sound (mapLines_sound olLine_sound (ulStage_sound
      (mapLines_sound bqLine_sound (mapLines_sound hrLine_sound
        (codeStage_sound (italStage_sound (boldStage_sound
          (mapLines_sound h1Line_sound (mapLines_sound h2Line_sound
            (mapLines_sound h3Line_sound hs)))))))))))))

/-- C9: for every input string, `renderMarkdown` escapes `&`, `<` and `>`
to their HTML entities first — per character, before any markdown stage
runs — so the escaped text contains no raw angle bracket, and the produced
HTML satisfies the tag-soundness invariant: every raw angle bracket of the
output lies inside a renderer-introduced tag; a `null`/`undefined` input
and an empty input both yield the empty string. -/
theorem renderMarkdown_escape_safety (s : List Char) :
    renderMarkdown (some s) =
      (if s = [] then [] else mdPipeline (escapeHtml s)) ∧
    escapeHtml s = s.flatMap escChar ∧
    ((escapeHtml s).all fun c => !(c == '<') && !(c == '>')) = true ∧
    TagSound (renderMarkdown (some s)) ∧
    renderMarkdown none = [] := by
  refine ⟨rfl, escapeHtml_eq s, escapeHtml_no_angle s, ?_, rfl⟩
  rw [renderMarkdown]
  split
  · exact TagSound.nil
  · exact mdPipeline_sound (TagSound.of_no_angle (escapeHtml_no_angle s))

end SmartScout

-- sanity examples (kept: they are part of the development's test surface)
example : SmartScout.classifyLog "[✓] Saved targets".data = "done".data := by decide
example : SmartScout.classifyLog "[!] boom".data = "error".data := by decide
example : SmartScout.classifyLog "[dry run] skipping".data = "warn".data := by decide
example : SmartScout.classifyLog "[>] fetching".data = "info".data := by decide
example : SmartScout.classifyLog "plain line".data = [] := by decide
example : SmartScout.classifyLog "targets saved".data = "done".data := by decide
